import Mathlib

/-!
# filetoarray: a shallow embedding of `src/filetoarray.c`

C strings are `List Char` (no embedded NUL), a `char` of code `v` being the
`Char` of code `v`; the bytes of a file are `Nat`s; a `FILE *` opened for
reading is the byte sequence of the file with a read position; every
function that writes to a `FILE *` returns the text it writes, and the text
reaches the file when the stream is closed.  `toupper` and `tolower` are
those of the "C" locale, and the text `strftime` makes of the current time
is a parameter.

File sizes stay below `2^63` (`ftell` returns `long`), so the `size_t` and
`long` counters of the source never wrap and are `Nat`s.  The narrowing of
the `size_t` indent width to `int` is modelled, `int` having 32 bits, and so
is the limit of `INT_MAX` characters on what one call of `fprintf` writes
in `print_content`, the one call whose length the command line sets (file
names are far shorter than `INT_MAX`).  The C library is the GNU C library,
`long` having 64 bits.
-/

namespace FileToArray

/-! ## Constants -/

def EMPTY : List Char := "".toList

def MAX_NAME_LENGTH : Nat := 2048

def DEFAULT_IO_BUFFER_SIZE : Nat := 8192

def BYTES_PER_LINE : Nat := 16

def DEFAULT_LINE_INDENT : Nat := 4

def DEFAULT_ELEMENT_INDENT : Int := 1

def DEFAULT_OUTPUT_FILENAME : List Char := "./array.h".toList

/-- The `enum type` of the source: `TYPE_DECLARATION = 1`. -/
def TYPE_DECLARATION : Nat := 1

/-- The `enum type` of the source: `TYPE_DEFINITION = 2`. -/
def TYPE_DEFINITION : Nat := 2

/-- The anonymous `enum` of `struct config_s`. -/
inductive Mode where
  | MODE_PROCESS
  | MODE_VERSION
  | MODE_HELP
  deriving DecidableEq, Repr

/-- The `struct config_s` of the source.  `input_filename` may be `NULL`
(`none`); `output_filename` is never `NULL` (the default configuration sets
it and `-o` only replaces it by an argument); `indent` is a `size_t`. -/
structure config where
  mode : Mode
  input_filename : Option (List Char)
  output_filename : List Char
  indent : Nat
  progmem : Bool

/-- The initialiser `config_s_default`. -/
def config_s_default : config :=
  { mode := Mode.MODE_PROCESS, input_filename := none,
    output_filename := DEFAULT_OUTPUT_FILENAME, indent := DEFAULT_LINE_INDENT,
    progmem := false }

/-! ## Input streams -/

/-- A stream opened for reading: the bytes of the file and the read
position.  The bytes of the file stay what they are while the stream is
open: no result is given for a run that would change them (see
`process_file`). -/
structure FILE where
  data : List Nat
  pos : Nat
  deriving DecidableEq, Repr

/-- The value a byte of the file has once stored in the `char buffer[]`
(`char` is signed: bytes from 0x80 on are negative). -/
def byte_to_char (b : Nat) : Int :=
  if b % 256 < 128 then (b % 256 : Nat) else ((b % 256 : Nat) : Int) - 256

/-- The cast `(uint8_t)c`. -/
def to_uint8 (c : Int) : Nat := (c % 256).toNat

/-- The conversion of a `size_t` to `int` (32 bits, two's complement): the
value is reduced modulo `2^32` into the range of `int`. -/
def size_t_to_int (n : Nat) : Int :=
  if n % 4294967296 < 2147483648 then ((n % 4294967296 : Nat) : Int)
  else ((n % 4294967296 : Nat) : Int) - 4294967296

/-- A call `fread(buffer, 1, size, input)`: the bytes read and the stream after. -/
def fread (size : Nat) (input : FILE) : List Int × FILE :=
  let bytes := (input.data.drop input.pos).take size
  (bytes.map byte_to_char, { input with pos := input.pos + bytes.length })

def ftell (file : FILE) : Nat := file.pos

/-- A call `fseek(file, 0, SEEK_END)`. -/
def fseek_end (file : FILE) : FILE := { file with pos := file.data.length }

/-- A call `fseek(file, position, SEEK_SET)`. -/
def fseek_set (file : FILE) (position : Nat) : FILE := { file with pos := position }

def calculate_file_size (file : FILE) : Nat × FILE :=
  let current_position := ftell file
  let file1 := fseek_end file
  let size := ftell file1
  let file2 := fseek_set file1 current_position
  (size, file2)

/-! ## `printf` conversions -/

/-- The largest `int`, which is the largest number of characters a call of
`fprintf` can report as written. -/
def INT_MAX : Nat := 2147483647

/-- The smallest `int`. -/
def INT_MIN : Int := -2147483648

/-- The digits of the conversion `%X`: upper-case hexadecimal. -/
def fmt_X (v : Nat) : List Char := (Nat.toDigits 16 v).map Char.toUpper

/-- The zeros the conversion `%02X` writes before the digits `digits`. -/
def fmt_zero_pad (digits : List Char) : List Char := List.replicate (2 - digits.length) '0'

/-- The conversion `%02X`: upper-case hexadecimal, zero-padded to two digits. -/
def fmt_02X (v : Nat) : List Char := fmt_zero_pad (fmt_X v) ++ fmt_X v

/-- The conversion `%*s` applied to the empty string: a negative width
means left-justified in the absolute width, so only the padding is left.
The width `INT_MIN` has no absolute value in `int`: it stays negative and
no padding is written for it. -/
def fmt_pad_empty (width : Int) : List Char :=
  if width = INT_MIN then [] else List.replicate width.natAbs ' '

/-- The conversion `%lu`. -/
def fmt_lu (n : Nat) : List Char := Nat.toDigits 10 n

/-- The text one call of `fprintf` writes, `pieces` being what its format
and arguments give in order (the text of each conversion, the padding of a
conversion, each stretch of plain text of the format) and `done` the number
of characters the call has written so far.  The call counts its characters
in an `int`: as the GNU C library does it, a piece is written whole and then
counted, and once the count would pass `INT_MAX` the call fails and writes
nothing more. -/
def fprintf_pieces : List (List Char) → Nat → List Char
  | [], _ => []
  | piece :: pieces, done =>
    if done + piece.length ≤ INT_MAX then
      piece ++ fprintf_pieces pieces (done + piece.length)
    else piece

/-! ## The transcoder -/

/-- One pass of the body of the `for` loop of `print_content`: the text of
the `fprintf` for the byte `c`, the `total_bytes`-th of the stream.  The
format `%s%s%*s0x%02X` gives the pieces: separator, line feed, padding,
`0x`, the zeros of `%02X`, its digits. -/
def print_byte (configuration : config) (total_bytes : Nat) (c : Int) : List Char :=
  let new_line : Bool := total_bytes % BYTES_PER_LINE == 0
  let indent : Int :=
    if new_line then size_t_to_int configuration.indent else DEFAULT_ELEMENT_INDENT
  let line_feed : List Char := if new_line && total_bytes != 0 then "\n".toList else EMPTY
  let separator : List Char := if total_bytes != 0 then ",".toList else EMPTY
  fprintf_pieces
    [separator, line_feed, fmt_pad_empty indent, "0x".toList,
      fmt_zero_pad (fmt_X (to_uint8 c)), fmt_X (to_uint8 c)] 0

/-- The `for` loop of `print_content` over one buffer: the text written and
the value of `total_bytes` after it. -/
def print_buffer (configuration : config) : List Int → Nat → List Char × Nat
  | [], total_bytes => ([], total_bytes)
  | c :: rest, total_bytes =>
    let r := print_buffer configuration rest (total_bytes + 1)
    (print_byte configuration total_bytes c ++ r.1, r.2)

/-- The `while` loop of `print_content`; `none` when the fuel runs out
before `fread` returns 0. -/
def print_content_loop (configuration : config) :
    Nat → FILE → Nat → Option (List Char × FILE)
  | 0, _, _ => none
  | fuel + 1, input, total_bytes =>
    let r := fread DEFAULT_IO_BUFFER_SIZE input
    if r.1.length = 0 then some ([], r.2)
    else
      let w := print_buffer configuration r.1 total_bytes
      match print_content_loop configuration fuel r.2 w.2 with
      | none => none
      | some (text, input1) => some (w.1 ++ text, input1)

/-- The function `print_content`: the text written to `output` and the
input stream after the call.  Every pass of the loop reads at least one
byte, so one more pass than there are bytes left is enough. -/
def print_content (input : FILE) (configuration : config) : Option (List Char × FILE) :=
  print_content_loop configuration (input.data.length - input.pos + 1) input 0

/-! ## The name deriver -/

/-- The function `toupper` of the "C" locale. -/
def toupper (c : Char) : Char :=
  if 'a' ≤ c ∧ c ≤ 'z' then Char.ofNat (c.toNat - 32) else c

/-- The function `tolower` of the "C" locale. -/
def tolower (c : Char) : Char :=
  if 'A' ≤ c ∧ c ≤ 'Z' then Char.ofNat (c.toNat + 32) else c

/-- The loop of `get_basename`: `cursor` is the rest of the path still to
scan, `base` the text after the last separator seen (the whole path when
none was seen). -/
def get_basename_loop : List Char → List Char → List Char
  | [], base => base
  | c :: cursor, base =>
    if c = '/' ∨ c = '\\' then get_basename_loop cursor cursor
    else get_basename_loop cursor base

def get_basename (path : List Char) : List Char := get_basename_loop path path

/-- The loop of `get_varname_from` over the basename, `length` characters at most. -/
def get_varname_loop : List Char → Nat → List Char
  | [], _ => []
  | _ :: _, 0 => []
  | c :: name, length + 1 =>
    (if c = '.' then '_' else toupper c) :: get_varname_loop name length

def get_varname_from (filename : List Char) (length : Nat) : List Char :=
  get_varname_loop (get_basename filename) length

def transform_to_lowercase (string : List Char) : List Char := string.map tolower

/-! ## The templates -/

def HEADER_COMMENT (name : List Char) (size : Nat) : List Char :=
  "/*\n * File: ".toList ++ name ++ ", size: ".toList ++ fmt_lu size ++ " bytes.\n".toList ++
  " *\n".toList ++
  " * This code was generated by filetoarray tool (https://github.com/xreef/FileToArray).\n".toList ++
  " * Try filetoarray online: https://www.mischianti.org/online-converter-file-to-cpp-gzip-byte-array-3/.\n".toList ++
  " */\n\n".toList

def ARRAY_SIZE_DEFINITION (name : List Char) (size : Nat) : List Char :=
  "#define ".toList ++ name ++ "_LEN ".toList ++ fmt_lu size ++ "\n".toList

def ARRAY_DECLARATION (storage_class name : List Char) (size : Nat) (modifier : List Char) :
    List Char :=
  storage_class ++ "const unsigned char ".toList ++ name ++ "[".toList ++ fmt_lu size ++
  "]".toList ++ modifier

def ARRAY_LAST_MODIFIED_DEFINITION (name last_modified : List Char) : List Char :=
  "#define ".toList ++ name ++ "_LAST_MODIFIED \"".toList ++ last_modified ++ "\"\n".toList

def INLCUDE_HEADER_FILE (name : List Char) : List Char :=
  "#include \"".toList ++ name ++ "\"\n".toList

def PROGMEM_IMPORT : List Char :=
  "#if defined ESP8266\n#include <pgmspace.h>\n#endif\n\n".toList

def INCLUDE_GUARD (name1 name2 : List Char) : List Char :=
  "#ifndef ".toList ++ name1 ++ "\n#define ".toList ++ name2 ++ "\n\n".toList

def INCLUDE_GUARD_END (name : List Char) : List Char :=
  "#endif /* ".toList ++ name ++ " */\n".toList

/-! ## The emitter -/

/-- The function `print_last_modified`; `last_modified` is the text that
`strftime` makes of the current time. -/
def print_last_modified (variable_name last_modified : List Char) : List Char :=
  ARRAY_LAST_MODIFIED_DEFINITION variable_name last_modified ++ "\n".toList

/-- The function `print_source_code`: the text written to `output` and the
input stream after the call; `none` when the call does not return (the
input file name is `NULL`, or `print_content` does not return). -/
def print_source_code (input : FILE) (output_type : Nat) (configuration : config)
    (last_modified : List Char) : Option (List Char × FILE) := do
  let input_filename ← configuration.input_filename
  let (file_size, input1) := calculate_file_size input
  let out1 := HEADER_COMMENT (get_basename input_filename) file_size
  let include_guard := get_varname_from configuration.output_filename MAX_NAME_LENGTH
  let out2 :=
    if output_type = TYPE_DECLARATION then
      out1 ++ INCLUDE_GUARD include_guard include_guard
    else if output_type = TYPE_DEFINITION then
      out1 ++ (INLCUDE_HEADER_FILE (get_basename configuration.output_filename) ++ "\n".toList)
    else out1
  let variable_name := get_varname_from input_filename MAX_NAME_LENGTH
  let out3 :=
    if output_type &&& TYPE_DECLARATION ≠ 0 then
      out2 ++ print_last_modified variable_name last_modified ++
        (ARRAY_SIZE_DEFINITION variable_name file_size ++ "\n".toList)
    else out2
  let progmem_here : Bool := configuration.progmem && (output_type &&& TYPE_DEFINITION != 0)
  let modifier : List Char := if progmem_here then " PROGMEM".toList else EMPTY
  let out4 := if progmem_here then out3 ++ PROGMEM_IMPORT else out3
  let storage_class : List Char :=
    if output_type = TYPE_DEFINITION then "".toList
    else if output_type = TYPE_DECLARATION then "extern ".toList
    else "static ".toList
  let variable_name1 := transform_to_lowercase variable_name
  let out5 := out4 ++ ARRAY_DECLARATION storage_class variable_name1 file_size modifier
  let (out6, input2) ←
    if output_type &&& TYPE_DEFINITION ≠ 0 then do
      let (body, input2) ← print_content input1 configuration
      pure (out5 ++ " = \x7b\n".toList ++ body ++ "\x7d".toList, input2)
    else pure (out5, input1)
  let out7 := out6 ++ ";\n".toList
  let out8 :=
    if output_type = TYPE_DECLARATION then
      out7 ++ ("\n".toList ++ INCLUDE_GUARD_END include_guard)
    else out7
  pure (out8, input2)

/-! ## The file orchestrator -/

/-- The function `strrchr`: the index of the last occurrence of `ch` in
`s`, `none` for the `NULL` result. -/
def strrchr : List Char → Char → Option Nat
  | [], _ => none
  | c :: rest, ch =>
    match strrchr rest ch with
    | some i => some (i + 1)
    | none => if c = ch then some 0 else none

def is_header_file (filename : List Char) : Bool :=
  match strrchr filename '.' with
  | none => false
  | some dot => filename.drop dot == ".h".toList || filename.drop dot == ".hpp".toList

/-- The function `convert_header_name_to_source_name`; `none` when the name
has no `.` (the source then dereferences a pointer made from `NULL`). -/
def convert_header_name_to_source_name (name : List Char) : Option (List Char) :=
  match strrchr name '.' with
  | none => none
  | some dot =>
    if name.get? (dot + 1) = some 'h' then some (name.set (dot + 1) 'c') else some name

/-- The files the program can see.  `file_of path` is the file the path
names, or would create: two spellings of one file (`data.bin` and
`./data.bin`, or two links) have the same value.  `content` gives the bytes
of every existing file, and `writable path` tells whether
`fopen(path, "wb")` succeeds. -/
structure FileSystem where
  file_of : List Char → List Char
  content : List Char → Option (List Nat)
  writable : List Char → Bool

/-- The bytes of a text written to a file: a `char` is the `Char` of the same code. -/
def text_bytes (text : List Char) : List Nat := text.map Char.toNat

/-- The file system with the bytes of the file that `path` names replaced. -/
def FileSystem.store (fs : FileSystem) (path : List Char) (bytes : List Nat) : FileSystem :=
  { fs with
    content := fun file => if file = fs.file_of path then some bytes else fs.content file }

/-- A call `fopen(path, "rb")`: `none` when the file does not exist, else
the stream at the start of its bytes. -/
def fopen_rb (fs : FileSystem) (path : List Char) : Option FILE :=
  match fs.content (fs.file_of path) with
  | none => none
  | some bytes => some { data := bytes, pos := 0 }

/-- A call `fopen(path, "wb")`: `none` when the file cannot be opened, else
the file system in which the file exists and is empty. -/
def fopen_wb (fs : FileSystem) (path : List Char) : Option FileSystem :=
  if fs.writable path then some (fs.store path []) else none

/-- Whether two paths name the same file. -/
def same_file (fs : FileSystem) (path1 path2 : List Char) : Bool :=
  fs.file_of path1 == fs.file_of path2

/-- How a run of `process_file` ends: it returns, or it calls `exit`. -/
inductive Outcome where
  | returned
  | exited (status : Nat)
  deriving DecidableEq, Repr

def EXIT_FAILURE : Nat := 1

/-- The function `process_file`: how the run ends and the file system it
leaves.  The input is read through the stream opened at the start, which
goes from the one call of `print_source_code` to the next; the text written
to an output stream reaches its file when the stream is closed.

The result is `none` when the source does not determine one: a call of
`print_source_code` does not return, or a file is open on two streams at
once.  When the input file is also an output file, `fopen(path, "wb")`
empties the file under the input stream, and what the input stream then
reads (bytes it had buffered, nothing, or the text being written, without
end) depends on when the C library moves bytes between its buffers and the
file; when the header and its companion are one file, so does what the file
holds once both streams are closed. -/
def process_file (fs : FileSystem) (configuration : config) (last_modified : List Char) :
    Option (Outcome × FileSystem) :=
  match configuration.input_filename with
  | none => some (Outcome.exited EXIT_FAILURE, fs)
  | some input_filename =>
    match fopen_rb fs input_filename with
    | none => some (Outcome.exited EXIT_FAILURE, fs)
    | some input_file =>
      let output_filename := configuration.output_filename
      match fopen_wb fs output_filename with
      | none => some (Outcome.exited EXIT_FAILURE, fs)
      | some fs1 =>
        if same_file fs input_filename output_filename then none
        else if is_header_file configuration.output_filename then
          match print_source_code input_file TYPE_DECLARATION configuration last_modified with
          | none => none
          | some (declaration, input_file1) =>
            match convert_header_name_to_source_name output_filename with
            | none => none
            | some definition_output_filename =>
              match fopen_wb fs1 definition_output_filename with
              | none =>
                some (Outcome.exited EXIT_FAILURE,
                  fs1.store output_filename (text_bytes declaration))
              | some fs2 =>
                if same_file fs input_filename definition_output_filename ||
                    same_file fs output_filename definition_output_filename then none
                else
                  match print_source_code input_file1 TYPE_DEFINITION configuration
                      last_modified with
                  | none => none
                  | some (definition, _) =>
                    let fs3 := fs2.store definition_output_filename (text_bytes definition)
                    some (Outcome.returned, fs3.store output_filename (text_bytes declaration))
        else
          match print_source_code input_file (TYPE_DECLARATION ||| TYPE_DEFINITION)
              configuration last_modified with
          | none => none
          | some (text, _) =>
            some (Outcome.returned, fs1.store output_filename (text_bytes text))

/-! ## The command line -/

def USAGE : List Char := "Usage: filetoarray [options] file...\n".toList

def HELP : List Char :=
  USAGE ++
  "Options:\n".toList ++
  "  -h           Display this information.\n".toList ++
  "  -i <width>   Set indentation width.\n".toList ++
  "  -o <file>    Place the output into <file>. \n".toList ++
  "  -p           Use PROGMEM modifier.\n".toList ++
  "  -v           Display version information.\n".toList

def VERSION : List Char := "1.0".toList

/-- The text `VERSION_INFO`; `build` stands for `__DATE__ " " __TIME__`. -/
def VERSION_INFO (build : List Char) : List Char :=
  "filetoarray version ".toList ++ VERSION ++ " (build date: ".toList ++ build ++ ")\n".toList

/-- The digits at the head of a text, read in base 10 from the value `acc`. -/
def atoi_digits : List Char → Nat → Nat
  | [], acc => acc
  | c :: rest, acc =>
    if '0' ≤ c ∧ c ≤ '9' then atoi_digits rest (10 * acc + (c.toNat - 48)) else acc

/-- The white space `atoi` skips. -/
def isspace (c : Char) : Bool :=
  c == ' ' || c == '\t' || c == '\n' || c == Char.ofNat 11 || c == Char.ofNat 12 || c == '\r'

def LONG_MAX : Int := 9223372036854775807

def LONG_MIN : Int := -9223372036854775808

/-- The function `strtol` in base 10, as `atoi` calls it: white space, an
optional sign, digits; a value out of the range of `long` is replaced by
`LONG_MAX` or `LONG_MIN`. -/
def strtol (s : List Char) : Int :=
  match s.dropWhile isspace with
  | '-' :: rest => max (- (atoi_digits rest 0 : Int)) LONG_MIN
  | '+' :: rest => min (atoi_digits rest 0 : Int) LONG_MAX
  | rest => min (atoi_digits rest 0 : Int) LONG_MAX

/-- The conversion of a `long` to `int`: the value is reduced modulo `2^32`
into the range of `int`. -/
def long_to_int (v : Int) : Int := (v + 2147483648) % 4294967296 - 2147483648

/-- The function `atoi`: `(int) strtol(s, NULL, 10)`. -/
def atoi (s : List Char) : Int := long_to_int (strtol s)

/-- The conversion of an `int` to `size_t` (64 bits). -/
def int_to_size_t (v : Int) : Nat := (v % 18446744073709551616).toNat

/-- The loop of `parse_run_configuration` from the argument `argv[index]`
on: `previous` is `argv[index - 1]`, `arguments` is `argv[index]` and what
follows it.  The result is the configuration with its input file name set,
or `none` when the function calls `exit(EXIT_FAILURE)` for an unrecognized
option. -/
def parse_loop : List Char → List (List Char) → Bool → config → Option config
  | _, [], _, dest => some { dest with input_filename := none }
  | previous, argument :: arguments, value, dest =>
    if argument.head? = some '-' ∨ value = true then
      let flag := if value then previous else argument
      let c := flag.getD 1 (Char.ofNat 0)
      if c = 'o' then
        parse_loop argument arguments (!value)
          (if value then { dest with output_filename := argument } else dest)
      else if c = 'i' then
        parse_loop argument arguments (!value)
          (if value then { dest with indent := int_to_size_t (atoi argument) } else dest)
      else if c = 'p' then
        parse_loop argument arguments value { dest with progmem := true }
      else if c = 'h' then
        parse_loop argument arguments value { dest with mode := Mode.MODE_HELP }
      else if c = 'v' then
        parse_loop argument arguments value { dest with mode := Mode.MODE_VERSION }
      else none
    else some { dest with input_filename := some argument }

/-- The function `parse_run_configuration` on `argv` (`argv[0]` is the
program name): the loop starts at `argv[1]`. -/
def parse_run_configuration (argv : List (List Char)) (dest : config) : Option config :=
  parse_loop (argv.headD []) (argv.drop 1) false dest

def print_help : List Char := HELP

def print_version (build : List Char) : List Char := VERSION_INFO build

/-- What a run of the program leaves: the exit status, the text on the
standard output, the file system. -/
structure Run where
  status : Nat
  stdout : List Char
  files : FileSystem

/-- The function `main`; `none` when `process_file` does not return. -/
def main (fs : FileSystem) (argv : List (List Char)) (last_modified build : List Char) :
    Option Run :=
  match parse_run_configuration argv config_s_default with
  | none => some { status := EXIT_FAILURE, stdout := [], files := fs }
  | some run_configuration =>
    match run_configuration.mode with
    | Mode.MODE_PROCESS =>
      match process_file fs run_configuration last_modified with
      | none => none
      | some (Outcome.returned, fs1) => some { status := 0, stdout := [], files := fs1 }
      | some (Outcome.exited status, fs1) =>
        some { status := status, stdout := [], files := fs1 }
    | Mode.MODE_HELP => some { status := 0, stdout := print_help, files := fs }
    | Mode.MODE_VERSION => some { status := 0, stdout := print_version build, files := fs }

/-! ## Vocabulary of the properties -/

/-- The stream of a file of bytes `bytes` that has just been opened. -/
def opened (bytes : List Nat) : FILE := { data := bytes, pos := 0 }

/-- The stream `input` moved to its end (left where it is when already past it). -/
def at_end (input : FILE) : FILE :=
  { input with pos := input.pos + (input.data.length - input.pos) }

/-- The bytes of `input` from its read position on, as `fread` stores them. -/
def remaining_chars (input : FILE) : List Int :=
  (input.data.drop input.pos).map byte_to_char

/-- The upper-case hexadecimal digit of value `d`. -/
def hex_digit_upper (d : Nat) : Char := "0123456789ABCDEF".toList.getD d '?'

/-- The value of an upper-case hexadecimal digit; `none` for every other
character, the lower-case `a` to `f` included. -/
def hex_value (c : Char) : Option Nat :=
  if '0' ≤ c ∧ c ≤ '9' then some (c.toNat - 48)
  else if 'A' ≤ c ∧ c ≤ 'F' then some (c.toNat - 55)
  else none

/-- The literal of a byte: what the part `0x%02X` of the format of
`print_content` gives for the buffer element `c` cast to `uint8_t`. -/
def hex_literal (c : Int) : List Char := "0x".toList ++ fmt_02X (to_uint8 c)

/-- Whether `text` starts with a literal `0xHH`, `H` an upper-case hexadecimal digit. -/
def literal_at (text : List Char) : Bool :=
  match text with
  | a :: b :: h1 :: h2 :: _ =>
    a == '0' && b == 'x' && (hex_value h1).isSome && (hex_value h2).isSome
  | _ => false

/-- The number of places of `text` at which a literal `0xHH` starts. -/
def count_literals : List Char → Nat
  | [] => 0
  | c :: rest => (if literal_at (c :: rest) then 1 else 0) + count_literals rest

/-- Whether a character is one of the separators of the body: comma, space, newline. -/
def is_separator (c : Char) : Bool := c == ',' || c == ' ' || c == '\n'

/-- The number of spaces `printf` writes for the indent width at the start
of a line: the width itself when it fits an `int`. -/
def pad_width (configuration : config) : Nat :=
  (fmt_pad_empty (size_t_to_int configuration.indent)).length

/-- What `print_content` writes before the literal of the byte of index
`total_bytes`: a comma unless the byte is the first, a newline when the
index is a positive multiple of 16, then the padding. -/
def separator_text (configuration : config) (total_bytes : Nat) : List Char :=
  (if total_bytes = 0 then [] else [',']) ++
  (if total_bytes % 16 = 0 ∧ total_bytes ≠ 0 then ['\n'] else []) ++
  List.replicate (if total_bytes % 16 = 0 then pad_width configuration else 1) ' '

/-- The call of `fprintf` for the byte of index `total_bytes` has at most
`INT_MAX` characters to write.  Inside a line it has 6 (a comma, a space,
the literal); for the first byte of a line it has the padding and the 4
characters of the literal, and from the second line on a comma and a newline
more. -/
def byte_fits (configuration : config) (total_bytes : Nat) : Prop :=
  total_bytes % 16 = 0 →
    pad_width configuration + (if total_bytes = 0 then 4 else 6) ≤ INT_MAX

instance (configuration : config) (total_bytes : Nat) :
    Decidable (byte_fits configuration total_bytes) := by
  unfold byte_fits
  infer_instance

/-- No call of `fprintf` that `print_content` makes for an input of `n`
bytes has more than `INT_MAX` characters to write: the first byte takes the
padding of a line start and the 4 characters of its literal, the first byte
of a later line a comma and a newline more. -/
def fits_fprintf (configuration : config) (n : Nat) : Prop :=
  (0 < n → pad_width configuration + 4 ≤ INT_MAX) ∧
  (16 < n → pad_width configuration + 6 ≤ INT_MAX)

instance (configuration : config) (n : Nat) : Decidable (fits_fprintf configuration n) := by
  unfold fits_fprintf
  infer_instance

/-- The body written in full: for every byte in turn, what comes before its
literal, then its literal `0xHH`. -/
def whole_buffer (configuration : config) : List Int → Nat → List Char
  | [], _ => []
  | c :: rest, total_bytes =>
    separator_text configuration total_bytes ++ hex_literal c ++
      whole_buffer configuration rest (total_bytes + 1)

/-- The number of lines of a body of `n` literals, 16 to the line. -/
def line_count (n : Nat) : Nat := (n + 15) / 16

/-- The bytes of the line of index `k`: those of index `16 * k` to `16 * k + 15`. -/
def line_bytes (bytes : List Nat) (k : Nat) : List Nat := (bytes.drop (16 * k)).take 16

/-- The line of index `k` of the body as the specification describes it:
`w` spaces, the literals of the bytes of the line with a comma and one
space between them, and the comma that separates the last byte of the line
from the first of the next line. -/
def spec_line (w : Nat) (bytes : List Nat) (k : Nat) : List Char :=
  List.replicate w ' ' ++
  ", ".toList.intercalate ((line_bytes bytes k).map fun b => hex_literal (byte_to_char b)) ++
  (if k + 1 < line_count bytes.length then [','] else [])

/-- The symbol of the array and of its constants: derived from the input file name. -/
def symbol_of (input_filename : List Char) : List Char :=
  get_varname_from input_filename MAX_NAME_LENGTH

/-- The include guard: the symbol derived from the output file name. -/
def guard_of (configuration : config) : List Char :=
  get_varname_from configuration.output_filename MAX_NAME_LENGTH

/-- The Declaration-only fragment as the specification lists its parts:
header comment, include-guard opening, last-modified and size constants,
`extern` array declaration without initialiser, include-guard closing. -/
def declaration_fragment (configuration : config) (input_filename : List Char) (size : Nat)
    (last_modified : List Char) : List Char :=
  HEADER_COMMENT (get_basename input_filename) size ++
  INCLUDE_GUARD (guard_of configuration) (guard_of configuration) ++
  (ARRAY_LAST_MODIFIED_DEFINITION (symbol_of input_filename) last_modified ++ "\n".toList) ++
  (ARRAY_SIZE_DEFINITION (symbol_of input_filename) size ++ "\n".toList) ++
  ARRAY_DECLARATION "extern ".toList (transform_to_lowercase (symbol_of input_filename)) size
    [] ++
  ";\n".toList ++
  ("\n".toList ++ INCLUDE_GUARD_END (guard_of configuration))

/-- The memory-placement suffix of the array declaration. -/
def modifier_of (configuration : config) : List Char :=
  if configuration.progmem then " PROGMEM".toList else []

/-- The conditional include block of the memory-placement modifier, when requested. -/
def import_of (configuration : config) : List Char :=
  if configuration.progmem then PROGMEM_IMPORT else []

/-- The Definition-only fragment: header comment, include of the header,
the conditional include block when requested, the array declaration without
storage qualifier, the initialiser. -/
def definition_fragment (configuration : config) (input_filename : List Char) (size : Nat)
    (body : List Char) : List Char :=
  HEADER_COMMENT (get_basename input_filename) size ++
  (INLCUDE_HEADER_FILE (get_basename configuration.output_filename) ++ "\n".toList) ++
  import_of configuration ++
  ARRAY_DECLARATION [] (transform_to_lowercase (symbol_of input_filename)) size
    (modifier_of configuration) ++
  " = \x7b\n".toList ++ body ++ "\x7d".toList ++ ";\n".toList

/-- The fragment of single-file mode (Declaration and Definition together):
header comment, last-modified and size constants, the conditional include
block when requested, the `static` array declaration, the initialiser. -/
def combined_fragment (configuration : config) (input_filename : List Char) (size : Nat)
    (last_modified body : List Char) : List Char :=
  HEADER_COMMENT (get_basename input_filename) size ++
  (ARRAY_LAST_MODIFIED_DEFINITION (symbol_of input_filename) last_modified ++ "\n".toList) ++
  (ARRAY_SIZE_DEFINITION (symbol_of input_filename) size ++ "\n".toList) ++
  import_of configuration ++
  ARRAY_DECLARATION "static ".toList (transform_to_lowercase (symbol_of input_filename)) size
    (modifier_of configuration) ++
  " = \x7b\n".toList ++ body ++ "\x7d".toList ++ ";\n".toList

/-- The body `print_content` writes for the bytes left in `input`. -/
def body_of (configuration : config) (input : FILE) : List Char :=
  (print_buffer configuration (remaining_chars input) 0).1

/-- The array declaration as the specification words it: the storage
qualifier, `const unsigned char `, the lowercase of the symbol derived from
the input file name, the size in brackets, the suffix. -/
def array_declaration (qualifier input_filename : List Char) (size : Nat)
    (suffix : List Char) : List Char :=
  qualifier ++ "const unsigned char ".toList ++
  transform_to_lowercase (get_varname_from input_filename MAX_NAME_LENGTH) ++
  "[".toList ++ fmt_lu size ++ "]".toList ++ suffix

/-- Whether `pattern` occurs in the text right after an occurrence of the character `a`. -/
def occurs_after (a : Char) (pattern : List Char) : List Char → Bool
  | [] => false
  | c :: text => (c == a && pattern.isPrefixOf text) || occurs_after a pattern text

/-- A configuration for the examples: the input `data.bin`, all else default. -/
def sample_config : config :=
  { config_s_default with input_filename := some "data.bin".toList }

/-- The sample configuration with the indent width `INT_MAX`, as the option
`-i 2147483647` sets it. -/
def wide_config : config := { sample_config with indent := 2147483647 }

/-- The text `strftime` gives in the examples. -/
def sample_time : List Char := "Fri, 30 Oct 2026 21:08:00 GMT".toList

/-- The line of the size constant: `#define <SYM>_LEN <N>`, `<SYM>` the
symbol derived from the input file name, `<N>` in decimal. -/
def size_line (input_filename : List Char) (size : Nat) : List Char :=
  "#define ".toList ++ get_varname_from input_filename MAX_NAME_LENGTH ++ "_LEN ".toList ++
  fmt_lu size ++ "\n".toList

/-- The text `x` occurs in `text` and, somewhere after it, the text `y` occurs. -/
def appears_before (x y text : List Char) : Prop :=
  ∃ a b c, text = a ++ x ++ b ++ y ++ c

/-- The file a path names in the examples: a leading `./` does not count. -/
def sample_file_of : List Char → List Char
  | '.' :: '/' :: rest => sample_file_of rest
  | path => path

/-- A file system for the examples: the 17 bytes 0x00..0x10 in `data.bin`,
no other file, every path writable. -/
def sample_fs : FileSystem :=
  { file_of := sample_file_of,
    content := fun file => if file = "data.bin".toList then some (List.range 17) else none,
    writable := fun _ => true }

/-- A file system for the examples that holds the file `data.c`, of 1000
bytes, and no other; every path is writable. -/
def source_fs : FileSystem :=
  { file_of := sample_file_of,
    content := fun file => if file = "data.c".toList then some (List.replicate 1000 65) else none,
    writable := fun _ => true }

/-- A configuration for the examples: the input `data.c`, the output
`data.h`, as the command line `-o data.h data.c` sets them. -/
def source_config : config :=
  { config_s_default with
    input_filename := some "data.c".toList, output_filename := "data.h".toList }

/-- Whether a character separates the directories of a path. -/
def is_path_separator (c : Char) : Prop := c = '/' ∨ c = '\\'

/-- The image of a character of the basename in the symbol, as the
specification words it: `.` gives `_`, a letter gives its uppercase, every
other character is unchanged. -/
def symbol_char (c : Char) : Char := if c = '.' then '_' else c.toUpper

def is_digit (c : Char) : Prop := '0' ≤ c ∧ c ≤ '9'

def is_uppercase (c : Char) : Prop := 'A' ≤ c ∧ c ≤ 'Z'

def is_lowercase (c : Char) : Prop := 'a' ≤ c ∧ c ≤ 'z'

/-- The characters `a` and `b` are one letter in its two cases: one is a
lowercase letter and the other has the code 32 below, that of the uppercase
letter. -/
def same_letter (a b : Char) : Prop :=
  (is_lowercase a ∧ b.toNat + 32 = a.toNat) ∨ (is_lowercase b ∧ a.toNat + 32 = b.toNat)

/-- The characters `a` and `b` are equal, or one letter in its two cases, or
`.` and `_`. -/
def chars_alike (a b : Char) : Prop :=
  a = b ∨ same_letter a b ∨ (a = '.' ∧ b = '_') ∨ (a = '_' ∧ b = '.')

/-- A name that can stand as a C identifier and include-guard token, in the
upper case of the symbols: not empty, not starting with a digit, made of
uppercase letters, digits and underscores. -/
def is_c_identifier (s : List Char) : Prop :=
  s ≠ [] ∧ (∀ c, s.head? = some c → ¬ is_digit c) ∧
  ∀ c ∈ s, is_uppercase c ∨ is_digit c ∨ c = '_'

/-- Reading a literal `0xHH` as a number in base 16; `none` for any other text. -/
def parse_literal (text : List Char) : Option Nat :=
  match text with
  | [a, b, h1, h2] =>
    if a = '0' ∧ b = 'x' then
      match hex_value h1, hex_value h2 with
      | some v1, some v2 => some (16 * v1 + v2)
      | _, _ => none
    else none
  | _ => none

/-- Reading every text of a list as a literal; `none` when one of them is not a literal. -/
def parse_literals : List (List Char) → Option (List Nat)
  | [] => some []
  | text :: texts =>
    match parse_literal text, parse_literals texts with
    | some v, some vs => some (v :: vs)
    | _, _ => none

/-- Whether a character is kept when spaces and newlines are removed. -/
def not_blank (c : Char) : Bool := c != ' ' && c != '\n'

/-- Reading a body back: spaces and newlines are removed, what is left is
split at the commas, and every part is read as a literal `0xHH`; the empty
body is read as no byte. -/
def decode_body (body : List Char) : Option (List Nat) :=
  if body.filter not_blank = [] then some []
  else parse_literals ((body.filter not_blank).splitOn ',')

/-- The `while` loop of `print_content` when the successive calls of
`fread` deliver the buffers of the list `buffers` and then 0 bytes:
`total_bytes` goes on counting from one buffer to the next. -/
def print_content_chunks (configuration : config) : List (List Int) → Nat → List Char
  | [], _ => []
  | buffer :: buffers, total_bytes =>
    if buffer.length = 0 then []
    else
      let w := print_buffer configuration buffer total_bytes
      w.1 ++ print_content_chunks configuration buffers w.2

/-- The body as the specification describes it: every byte of the whole
sequence rendered in turn, with its index counted from the start. -/
def render_bytewise (configuration : config) (bytes : List Nat) : List Char :=
  (bytes.enum.map fun p => print_byte configuration p.1 (byte_to_char p.2)).flatten

/-- The arguments `arguments` are a sequence of recognized options: each is
a flag `-c...` with `c` one of `flags` (taken among `p`, `h`, `v`), or an
option `-o...` or `-i...` followed by its value. -/
inductive options_of (flags : List Char) : List (List Char) → Prop where
  | done : options_of flags []
  | flag (c : Char) (t : List Char) (arguments : List (List Char)) :
      c ∈ flags → options_of flags arguments →
      options_of flags (('-' :: c :: t) :: arguments)
  | valued (c : Char) (t value : List Char) (arguments : List (List Char)) :
      c = 'o' ∨ c = 'i' → options_of flags arguments →
      options_of flags (('-' :: c :: t) :: value :: arguments)

/-- The text `__DATE__ " " __TIME__` in the examples. -/
def sample_build : List Char := "Oct 30 2026 21:08:00".toList

/-! ## The transcoder: the loop over the buffers -/

theorem print_buffer_snd (cfg : config) (cs : List Int) (t : Nat) :
    (print_buffer cfg cs t).2 = t + cs.length := by
  induction cs generalizing t with
  | nil => simp [print_buffer]
  | cons c rest ih => simp [print_buffer, ih]; omega

theorem print_buffer_append (cfg : config) (xs ys : List Int) (t : Nat) :
    (print_buffer cfg (xs ++ ys) t).1 =
      (print_buffer cfg xs t).1 ++ (print_buffer cfg ys (t + xs.length)).1 := by
  induction xs generalizing t with
  | nil => simp [print_buffer]
  | cons c rest ih =>
    simp [print_buffer, ih, Nat.add_assoc, Nat.add_comm 1]

/-- With more fuel than bytes left, the loop of `print_content` returns the
text of all the bytes left, numbered from `t`, and leaves the stream at its end. -/
theorem print_content_loop_eq (cfg : config) (fuel : Nat) (input : FILE) (t : Nat)
    (h : input.data.length - input.pos < fuel) :
    print_content_loop cfg fuel input t =
      some ((print_buffer cfg (remaining_chars input) t).1, at_end input) := by
  induction fuel generalizing input t with
  | zero => omega
  | succ n ih =>
    obtain ⟨data, pos⟩ := input
    simp only [print_content_loop, fread, List.length_map, List.length_take, List.length_drop] at *
    by_cases h0 : min DEFAULT_IO_BUFFER_SIZE (data.length - pos) = 0
    · have hz : data.length - pos = 0 := by
        simp [DEFAULT_IO_BUFFER_SIZE] at h0; omega
      have hd : List.drop pos data = [] := by
        apply List.drop_eq_nil_of_le; omega
      simp [h0, remaining_chars, at_end, hd, hz, print_buffer]
    · rw [if_neg h0]
      have hlt : data.length - (pos + min DEFAULT_IO_BUFFER_SIZE (data.length - pos)) < n := by
        omega
      rw [ih ⟨data, pos + min DEFAULT_IO_BUFFER_SIZE (data.length - pos)⟩ _ hlt]
      simp only [remaining_chars, at_end, print_buffer_snd, List.length_map, List.length_take,
        List.length_drop]
      have hsplit : List.drop pos data =
          List.take DEFAULT_IO_BUFFER_SIZE (List.drop pos data) ++
            List.drop (pos + min DEFAULT_IO_BUFFER_SIZE (data.length - pos)) data := by
        conv_lhs => rw [← List.take_append_drop DEFAULT_IO_BUFFER_SIZE (List.drop pos data)]
        rw [List.drop_drop]
        congr 1
        by_cases hm : DEFAULT_IO_BUFFER_SIZE ≤ data.length - pos
        · rw [Nat.min_eq_left hm]
        · have h1 : data.length ≤ pos + min DEFAULT_IO_BUFFER_SIZE (data.length - pos) := by omega
          have h2 : data.length ≤ pos + DEFAULT_IO_BUFFER_SIZE := by omega
          rw [List.drop_eq_nil_of_le h1, List.drop_eq_nil_of_le h2]
      conv_rhs => rw [hsplit]
      rw [List.map_append, print_buffer_append]
      simp only [List.length_map, List.length_take, List.length_drop]
      congr 3
      omega

/-- The function `print_content` returns, with the text of all the bytes
left in the stream, and leaves the stream at its end. -/
theorem print_content_eq (input : FILE) (cfg : config) :
    print_content input cfg =
      some ((print_buffer cfg (remaining_chars input) 0).1, at_end input) :=
  print_content_loop_eq cfg _ input 0 (by omega)

/-! ## The transcoder: one call of `fprintf` -/

/-- A call of `fprintf` that has at most `INT_MAX` characters to write
writes all its pieces. -/
theorem fprintf_pieces_of_le (pieces : List (List Char)) (done : Nat)
    (h : done + pieces.flatten.length ≤ INT_MAX) :
    fprintf_pieces pieces done = pieces.flatten := by
  induction pieces generalizing done with
  | nil => rfl
  | cons p ps ih =>
    simp only [List.flatten_cons, List.length_append] at h
    rw [fprintf_pieces, if_pos (by omega), ih _ (by omega), List.flatten_cons]

/-- What a call of `fprintf` writes is always a beginning of its pieces. -/
theorem fprintf_pieces_prefix (pieces : List (List Char)) (done : Nat) :
    fprintf_pieces pieces done <+: pieces.flatten := by
  induction pieces generalizing done with
  | nil => exact List.prefix_refl _
  | cons p ps ih =>
    rw [fprintf_pieces, List.flatten_cons]
    split
    · exact (List.prefix_append_right_inj p).mpr (ih _)
    · exact List.prefix_append p _

/-- The first three pieces of a call are written whenever the first two are
short. -/
theorem fprintf_pieces_three (s l pad : List Char) (rest : List (List Char))
    (h : s.length + l.length ≤ INT_MAX) :
    ∃ tail, fprintf_pieces (s :: l :: pad :: rest) 0 = s ++ l ++ pad ++ tail ∧
      tail <+: rest.flatten := by
  rw [fprintf_pieces, if_pos (by omega), fprintf_pieces, if_pos (by omega), fprintf_pieces]
  split
  · exact ⟨fprintf_pieces rest (0 + s.length + l.length + pad.length),
      by simp only [List.append_assoc], fprintf_pieces_prefix _ _⟩
  · exact ⟨[], by simp only [List.append_assoc, List.append_nil], List.nil_prefix⟩

theorem fmt_pad_empty_eq (w : Int) :
    fmt_pad_empty w = List.replicate (fmt_pad_empty w).length ' ' := by
  unfold fmt_pad_empty
  split <;> simp

/-- The padding of a line start, when the indent width fits an `int`. -/
theorem pad_width_eq (cfg : config) (hw : cfg.indent < 2147483648) :
    pad_width cfg = cfg.indent := by
  have h1 : size_t_to_int cfg.indent = (cfg.indent : Int) := by
    unfold size_t_to_int
    split <;> omega
  unfold pad_width fmt_pad_empty INT_MIN
  rw [h1, if_neg (by omega), List.length_replicate, Int.natAbs_ofNat]

/-! ## The transcoder: one byte -/

set_option maxRecDepth 100000 in
theorem fmt_02X_eq :
    ∀ v, v < 256 → fmt_02X v = [hex_digit_upper (v / 16), hex_digit_upper (v % 16)] := by
  decide

set_option maxRecDepth 100000 in
theorem hex_value_digit : ∀ d, d < 16 → hex_value (hex_digit_upper d) = some d := by
  decide

theorem to_uint8_lt (c : Int) : to_uint8 c < 256 := by
  unfold to_uint8
  omega

theorem to_uint8_byte_to_char (b : Nat) (h : b < 256) : to_uint8 (byte_to_char b) = b := by
  unfold to_uint8 byte_to_char
  split <;> omega

theorem hex_literal_eq (c : Int) :
    hex_literal c =
      ['0', 'x', hex_digit_upper (to_uint8 c / 16), hex_digit_upper (to_uint8 c % 16)] := by
  simp [hex_literal, fmt_02X_eq _ (to_uint8_lt c)]

theorem hex_literal_length (c : Int) : (hex_literal c).length = 4 := by
  rw [hex_literal_eq]
  rfl

/-- The pieces of the call of `fprintf` for one byte: what comes before the
literal is made of the first three, the literal of the last three. -/
theorem print_byte_pieces (cfg : config) (t : Nat) (c : Int) :
    ∃ s l : List Char, s.length + l.length ≤ 2 ∧
      s ++ l ++ fmt_pad_empty
        (if t % 16 = 0 then size_t_to_int cfg.indent else DEFAULT_ELEMENT_INDENT) =
        separator_text cfg t ∧
      print_byte cfg t c =
        fprintf_pieces [s, l,
          fmt_pad_empty (if t % 16 = 0 then size_t_to_int cfg.indent else DEFAULT_ELEMENT_INDENT),
          "0x".toList, fmt_zero_pad (fmt_X (to_uint8 c)), fmt_X (to_uint8 c)] 0 := by
  unfold print_byte separator_text pad_width
  by_cases h0 : t = 0
  · subst h0
    refine ⟨[], [], by decide, ?_, ?_⟩
    · simp [← fmt_pad_empty_eq]
    · simp [BYTES_PER_LINE, EMPTY]
  · by_cases h16 : t % 16 = 0
    · refine ⟨[','], ['\n'], by decide, ?_, ?_⟩
      · simp [h0, h16, ← fmt_pad_empty_eq]
      · simp [BYTES_PER_LINE, EMPTY, h0, h16]
    · refine ⟨[','], [], by decide, ?_, ?_⟩
      · simp [h0, h16, DEFAULT_ELEMENT_INDENT, fmt_pad_empty, INT_MIN]
      · simp [BYTES_PER_LINE, EMPTY, h0, h16]

theorem flatten_literal_pieces (c : Int) :
    ["0x".toList, fmt_zero_pad (fmt_X (to_uint8 c)), fmt_X (to_uint8 c)].flatten =
      hex_literal c := by
  simp [hex_literal, fmt_02X]

/-- Whatever the indent width, the call of `fprintf` for a byte writes what
comes before the literal, and then a beginning of the literal. -/
theorem print_byte_split (cfg : config) (t : Nat) (c : Int) :
    ∃ tail, print_byte cfg t c = separator_text cfg t ++ tail ∧ tail <+: hex_literal c := by
  obtain ⟨s, l, hlen, hsep, hp⟩ := print_byte_pieces cfg t c
  obtain ⟨tail, h1, h2⟩ := fprintf_pieces_three s l
    (fmt_pad_empty (if t % 16 = 0 then size_t_to_int cfg.indent else DEFAULT_ELEMENT_INDENT))
    ["0x".toList, fmt_zero_pad (fmt_X (to_uint8 c)), fmt_X (to_uint8 c)]
    (by unfold INT_MAX; omega)
  rw [flatten_literal_pieces] at h2
  exact ⟨tail, by rw [hp, h1, hsep], h2⟩

theorem separator_text_length (cfg : config) (t : Nat) :
    (separator_text cfg t).length =
      if t = 0 then pad_width cfg else if t % 16 = 0 then pad_width cfg + 2 else 2 := by
  unfold separator_text
  by_cases h0 : t = 0
  · simp [h0]
  · by_cases h16 : t % 16 = 0
    · simp [h0, h16]
    · simp [h0, h16]

theorem separator_text_fits (cfg : config) (t : Nat) (h : byte_fits cfg t) :
    (separator_text cfg t).length + 4 ≤ INT_MAX := by
  rw [separator_text_length]
  unfold byte_fits at h
  unfold INT_MAX at *
  split
  · rename_i h0
    have := h (by omega)
    rw [if_pos h0] at this
    exact this
  · rename_i h0
    split
    · rename_i h16
      have := h h16
      rw [if_neg h0] at this
      omega
    · omega

/-- When the call of `fprintf` for a byte has at most `INT_MAX` characters
to write, it writes what comes before the literal, and the literal. -/
theorem print_byte_eq (cfg : config) (t : Nat) (c : Int) (h : byte_fits cfg t) :
    print_byte cfg t c = separator_text cfg t ++ hex_literal c := by
  obtain ⟨s, l, _, hsep, hp⟩ := print_byte_pieces cfg t c
  have h := separator_text_fits cfg t h
  rw [hp, fprintf_pieces_of_le]
  · rw [← hsep, ← flatten_literal_pieces]
    simp
  · have h4 := hex_literal_length c
    rw [← flatten_literal_pieces] at h4
    rw [← hsep] at h
    simp only [List.flatten_cons, List.flatten_nil, List.length_append, List.append_nil,
      List.length_nil] at h h4 ⊢
    omega

theorem separator_text_is_separator (cfg : config) (t : Nat) :
    ∀ c ∈ separator_text cfg t, is_separator c = true := by
  intro c hc
  unfold separator_text at hc
  simp only [List.mem_append, List.mem_replicate] at hc
  rcases hc with (hc | hc) | hc
  · split at hc <;> simp at hc
    subst hc; decide
  · split at hc <;> simp at hc
    subst hc; decide
  · rw [hc.2]; decide

theorem whole_buffer_cons (cfg : config) (c : Int) (rest : List Int) (t : Nat) :
    whole_buffer cfg (c :: rest) t =
      separator_text cfg t ++ hex_literal c ++ whole_buffer cfg rest (t + 1) := rfl

theorem whole_buffer_append (cfg : config) (xs ys : List Int) (t : Nat) :
    whole_buffer cfg (xs ++ ys) t =
      whole_buffer cfg xs t ++ whole_buffer cfg ys (t + xs.length) := by
  induction xs generalizing t with
  | nil => simp [whole_buffer]
  | cons c rest ih =>
    simp [whole_buffer, ih, Nat.add_assoc, Nat.add_comm 1]

/-- When every call of `fprintf` has at most `INT_MAX` characters to write,
the loop over a buffer writes the body in full. -/
theorem print_buffer_eq_whole (cfg : config) (cs : List Int) (t : Nat)
    (h : ∀ i, i < cs.length → byte_fits cfg (t + i)) :
    (print_buffer cfg cs t).1 = whole_buffer cfg cs t := by
  induction cs generalizing t with
  | nil => rfl
  | cons c rest ih =>
    have h0 : byte_fits cfg t := h 0 (by simp)
    have hrest : ∀ i, i < rest.length → byte_fits cfg (t + 1 + i) := by
      intro i hi
      have := h (i + 1) (by simp only [List.length_cons]; omega)
      rwa [Nat.add_assoc, Nat.add_comm 1]
    simp only [print_buffer, whole_buffer, print_byte_eq cfg t c h0, ih (t + 1) hrest]

theorem byte_fits_of_fits (cfg : config) (n : Nat) (h : fits_fprintf cfg n) :
    ∀ i, i < n → byte_fits cfg i := by
  intro i hi h16
  unfold fits_fprintf at h
  split
  · exact h.1 (by omega)
  · exact h.2 (by omega)

theorem remaining_chars_opened (bytes : List Nat) :
    remaining_chars (opened bytes) = bytes.map byte_to_char := by
  simp [remaining_chars, opened]

/-- The body of a file for which every call of `fprintf` has at most
`INT_MAX` characters to write is the body in full. -/
theorem body_of_eq_whole (cfg : config) (bytes : List Nat)
    (h : fits_fprintf cfg bytes.length) :
    body_of cfg (opened bytes) = whole_buffer cfg (bytes.map byte_to_char) 0 := by
  rw [body_of, remaining_chars_opened]
  apply print_buffer_eq_whole
  intro i hi
  rw [List.length_map] at hi
  rw [Nat.zero_add]
  exact byte_fits_of_fits cfg _ h i hi

/-! ## The indent width `INT_MAX` -/

theorem pad_width_wide : pad_width wide_config = 2147483647 := by
  apply pad_width_eq
  decide

/-- With the indent width `INT_MAX` the call of `fprintf` for the first
byte writes the padding and `0x`; its count of characters then passes
`INT_MAX`, and the digits are not written. -/
theorem print_byte_wide (c : Int) :
    print_byte wide_config 0 c = List.replicate 2147483647 ' ' ++ ['0', 'x'] := by
  obtain ⟨s, l, hlen, hsep, hp⟩ := print_byte_pieces wide_config 0 c
  have hsep0 : separator_text wide_config 0 = List.replicate 2147483647 ' ' := by
    unfold separator_text
    rw [if_pos rfl, if_neg (by decide), if_pos (by decide), pad_width_wide]
    rfl
  have e : (if 0 % 16 = 0 then size_t_to_int wide_config.indent else DEFAULT_ELEMENT_INDENT) =
      size_t_to_int wide_config.indent := if_pos rfl
  rw [e] at hsep hp
  rw [hsep0] at hsep
  have hl : s.length + l.length +
      (fmt_pad_empty (size_t_to_int wide_config.indent)).length = 2147483647 := by
    have := congrArg List.length hsep
    simp only [List.length_append, List.length_replicate] at this
    exact this
  have hassoc : ∀ a b c d : List Char, a ++ (b ++ (c ++ d)) = a ++ b ++ c ++ d := by
    intro a b c d
    simp only [List.append_assoc]
  have h2 : "0x".toList.length = 2 := rfl
  rw [hp, fprintf_pieces, if_pos (by unfold INT_MAX; omega), fprintf_pieces,
    if_pos (by unfold INT_MAX; omega), fprintf_pieces, if_pos (by unfold INT_MAX; omega),
    fprintf_pieces, if_neg (by rw [h2]; unfold INT_MAX; omega), hassoc, hsep]
  rfl

theorem body_of_wide (b : Nat) :
    body_of wide_config (opened [b]) = List.replicate 2147483647 ' ' ++ ['0', 'x'] := by
  rw [body_of, remaining_chars_opened]
  simp only [List.map_cons, List.map_nil, print_buffer, print_byte_wide, List.append_nil]

theorem print_content_wide (b : Nat) :
    print_content (opened [b]) wide_config =
      some (List.replicate 2147483647 ' ' ++ ['0', 'x'], at_end (opened [b])) := by
  rw [print_content_eq]
  exact congrArg (fun body => some (body, at_end (opened [b]))) (body_of_wide b)
/-! ## Counting in the body -/

theorem literal_at_cons_ne (c : Char) (xs : List Char) (h : c ≠ '0') :
    literal_at (c :: xs) = false := by
  unfold literal_at
  split
  · rename_i a b h1 h2 r heq
    simp only [List.cons.injEq] at heq
    simp [← heq.1, h]
  · rfl

theorem count_literals_separators (s rest : List Char)
    (hs : ∀ c ∈ s, is_separator c = true) :
    count_literals (s ++ rest) = count_literals rest := by
  induction s with
  | nil => rfl
  | cons c s ih =>
    have hc : c ≠ '0' := by
      intro h
      have := hs c (List.mem_cons_self _ _)
      rw [h] at this
      exact absurd this (by decide)
    simp only [List.cons_append, count_literals, literal_at_cons_ne _ _ hc]
    simp [ih (fun d hd => hs d (List.mem_cons_of_mem _ hd))]

set_option maxRecDepth 100000 in
theorem hex_digit_upper_ne : ∀ d, d < 16 →
    hex_digit_upper d ≠ 'x' ∧ hex_digit_upper d ≠ ',' ∧ hex_digit_upper d ≠ '\n' ∧
      hex_digit_upper d ≠ ' ' := by
  decide

theorem to_uint8_div_lt (c : Int) : to_uint8 c / 16 < 16 := by
  have := to_uint8_lt c
  omega

theorem count_literals_hex_literal (c : Int) (rest : List Char)
    (hrest : rest.head? ≠ some 'x') :
    count_literals (hex_literal c ++ rest) = 1 + count_literals rest := by
  have h1 := hex_value_digit _ (to_uint8_div_lt c)
  have h2 := hex_value_digit _ (Nat.mod_lt (to_uint8 c) (by decide : 16 > 0))
  have n1 := hex_digit_upper_ne _ (to_uint8_div_lt c)
  have n2 := hex_digit_upper_ne _ (Nat.mod_lt (to_uint8 c) (by decide : 16 > 0))
  rw [hex_literal_eq]
  generalize hex_digit_upper (to_uint8 c / 16) = a at *
  generalize hex_digit_upper (to_uint8 c % 16) = b at *
  have hx : hex_value 'x' = none := by decide
  have e0 : literal_at ('0' :: 'x' :: a :: b :: rest) = true := by
    simp [literal_at, h1, h2]
  have e1 : literal_at ('x' :: a :: b :: rest) = false :=
    literal_at_cons_ne _ _ (by decide)
  have e2 : literal_at (a :: b :: rest) = false := by
    unfold literal_at
    split
    · rename_i a1 b1 c1 d1 r heq
      simp only [List.cons.injEq] at heq
      have : b1 ≠ 'x' := by rw [← heq.2.1]; exact n2.1
      simp [this]
    · rfl
  have e3 : literal_at (b :: rest) = false := by
    unfold literal_at
    split
    · rename_i a1 b1 c1 d1 r heq
      simp only [List.cons.injEq] at heq
      have : b1 ≠ 'x' := by
        intro hb
        apply hrest
        rw [heq.2, hb]; rfl
      simp [this]
    · rfl
  simp [count_literals, e0, e1, e2, e3]

theorem separator_text_head (cfg : config) (t : Nat) (rest : List Char) :
    (separator_text cfg (t + 1) ++ rest).head? = some ',' := by
  simp [separator_text]

theorem whole_buffer_head (cfg : config) (cs : List Int) (t : Nat) :
    (whole_buffer cfg cs (t + 1)).head? ≠ some 'x' := by
  cases cs with
  | nil => simp [whole_buffer]
  | cons c rest =>
    rw [whole_buffer_cons, List.append_assoc, separator_text_head]
    simp

theorem count_literals_whole_buffer (cfg : config) (cs : List Int) (t : Nat) :
    count_literals (whole_buffer cfg cs t) = cs.length := by
  induction cs generalizing t with
  | nil => simp [whole_buffer, count_literals]
  | cons c rest ih =>
    rw [whole_buffer_cons, List.append_assoc,
      count_literals_separators _ _ (separator_text_is_separator cfg t),
      count_literals_hex_literal _ _ (whole_buffer_head cfg rest t), ih]
    simp [Nat.add_comm]

theorem count_hex_literal (c : Int) (x : Char) (hx : is_separator x = true) :
    List.count x (hex_literal c) = 0 := by
  have n1 := hex_digit_upper_ne _ (to_uint8_div_lt c)
  have n2 := hex_digit_upper_ne _ (Nat.mod_lt (to_uint8 c) (by decide : 16 > 0))
  rw [hex_literal_eq, List.count_eq_zero]
  intro hmem
  simp only [List.mem_cons, List.mem_singleton, List.not_mem_nil, or_false] at hmem
  simp only [is_separator, Bool.or_eq_true, beq_iff_eq] at hx
  rcases hmem with h | h | h | h <;> subst h
  · revert hx; decide
  · revert hx; decide
  · rcases hx with (h | h) | h
    · exact n1.2.1 h
    · exact n1.2.2.2 h
    · exact n1.2.2.1 h
  · rcases hx with (h | h) | h
    · exact n2.2.1 h
    · exact n2.2.2.2 h
    · exact n2.2.2.1 h

theorem count_comma_separator_text (cfg : config) (t : Nat) :
    List.count ',' (separator_text cfg t) = if t = 0 then 0 else 1 := by
  unfold separator_text
  by_cases h0 : t = 0
  · simp [h0, List.count_replicate]
  · by_cases h16 : t % 16 = 0 <;> simp [h0, h16, List.count_replicate]

theorem count_newline_separator_text (cfg : config) (t : Nat) :
    List.count '\n' (separator_text cfg t) = if t % 16 = 0 ∧ t ≠ 0 then 1 else 0 := by
  unfold separator_text
  by_cases h0 : t = 0
  · simp [h0, List.count_replicate]
  · by_cases h16 : t % 16 = 0 <;> simp [h0, h16, List.count_replicate]

/-- Whatever the indent width, the commas, spaces and newlines of the text
written for a byte are those written before its literal. -/
theorem count_separator_print_byte (cfg : config) (t : Nat) (c : Int) (x : Char)
    (hx : is_separator x = true) :
    List.count x (print_byte cfg t c) = List.count x (separator_text cfg t) := by
  obtain ⟨tail, h1, h2⟩ := print_byte_split cfg t c
  rw [h1, List.count_append]
  have hle := h2.sublist.count_le x
  rw [count_hex_literal c x hx] at hle
  omega

theorem count_comma_print_buffer (cfg : config) (cs : List Int) (t : Nat) :
    List.count ',' (print_buffer cfg cs (t + 1)).1 = cs.length := by
  induction cs generalizing t with
  | nil => simp [print_buffer]
  | cons c rest ih =>
    simp only [print_buffer, List.count_append,
      count_separator_print_byte _ _ _ _ (by decide : is_separator ',' = true),
      count_comma_separator_text, ih]
    simp [Nat.add_comm]

theorem count_newline_print_buffer (cfg : config) (cs : List Int) (t : Nat) :
    List.count '\n' (print_buffer cfg cs (t + 1)).1 = (t + cs.length) / 16 - t / 16 := by
  induction cs generalizing t with
  | nil => simp [print_buffer]
  | cons c rest ih =>
    simp only [print_buffer, List.count_append,
      count_separator_print_byte _ _ _ _ (by decide : is_separator '\n' = true),
      count_newline_separator_text, ih, List.length_cons]
    split <;> omega

theorem getLast?_append_of_getLast? (xs ys : List Char) (c : Char)
    (h : ys.getLast? = some c) : (xs ++ ys).getLast? = some c := by
  simp [List.getLast?_append, h]

theorem count_literals_wide_body :
    count_literals (List.replicate 2147483647 ' ' ++ ['0', 'x']) = 0 := by
  rw [count_literals_separators]
  · decide
  · intro c hc
    rw [List.eq_of_mem_replicate hc]
    decide

/-! ## The claims on the transcoder -/

/-- C1 as stated fails: with the indent width `INT_MAX` (the option
`-i 2147483647`) the call of `fprintf` for the one byte of a one-byte file
writes the padding and `0x` and then fails, so the body holds no literal
`0xHH`, not one. -/
theorem C1_counterexample_literal_not_written :
    ∃ body input1, print_content (opened [0]) wide_config = some (body, input1) ∧
      body = List.replicate 2147483647 ' ' ++ ['0', 'x'] ∧
      count_literals body = 0 ∧ [0].length = 1 :=
  ⟨_, _, print_content_wide 0, rfl, count_literals_wide_body, rfl⟩

/-- C1, amended: for every input byte sequence of length N and every
configuration (so every indent width), `print_content` returns a body with
exactly N - 1 commas (0 when N = 0) and exactly ceil(N/16) - 1 newlines (0
when N = 0); and the body holds exactly N literals `0xHH` when no call of
`fprintf` has more than `INT_MAX` characters to write, that is, p being the
number of spaces written for the indent width, p + 4 is at most `INT_MAX`
when N > 0 and p + 6 is at most `INT_MAX` when N > 16. -/
theorem C1_print_content_counts (bytes : List Nat) (cfg : config) :
    ∃ body input1, print_content (opened bytes) cfg = some (body, input1) ∧
      (fits_fprintf cfg bytes.length → count_literals body = bytes.length) ∧
      List.count ',' body = bytes.length - 1 ∧
      List.count '\n' body = (bytes.length + 15) / 16 - 1 := by
  refine ⟨_, _, print_content_eq _ _, ?_, ?_, ?_⟩
  · intro hfit
    have := body_of_eq_whole cfg bytes hfit
    unfold body_of at this
    rw [this, count_literals_whole_buffer, List.length_map]
  · rw [remaining_chars_opened]
    cases bytes with
    | nil => simp [print_buffer]
    | cons b rest =>
      simp only [List.map_cons, print_buffer, List.count_append,
        count_separator_print_byte _ _ _ _ (by decide : is_separator ',' = true),
        count_comma_separator_text, count_comma_print_buffer]
      simp
  · rw [remaining_chars_opened]
    cases bytes with
    | nil => simp [print_buffer]
    | cons b rest =>
      simp only [List.map_cons, print_buffer, List.count_append,
        count_separator_print_byte _ _ _ _ (by decide : is_separator '\n' = true),
        count_newline_separator_text, count_newline_print_buffer]
      simp only [List.length_map, List.length_cons, ne_eq, not_true_eq_false, and_false,
        if_false]
      omega

/-- C1, amended, at the 17 bytes 0x00..0x10 with the default configuration:
17 literals, 16 commas, one newline. -/
theorem C1_print_content_counts_witness :
    fits_fprintf config_s_default (List.range 17).length ∧
    ∃ body input1, print_content (opened (List.range 17)) config_s_default =
        some (body, input1) ∧
      count_literals body = 17 ∧ List.count ',' body = 16 ∧ List.count '\n' body = 1 := by
  obtain ⟨body, input1, h1, h2, h3, h4⟩ :=
    C1_print_content_counts (List.range 17) config_s_default
  exact ⟨by decide, body, input1, h1, h2 (by decide), h3, h4⟩

/-- C3 as stated fails: with the indent width `INT_MAX` the text written
for the byte 0xFF at the start of the stream is the padding and `0x`; the
call of `fprintf` has failed before the digits, and no two hexadecimal
digits follow `0x`. -/
theorem C3_counterexample_no_digits :
    print_byte wide_config 0 (byte_to_char 255) =
      List.replicate 2147483647 ' ' ++ ['0', 'x'] ∧
    ¬ ∃ (sep : List Char) (h1 h2 : Char),
      print_byte wide_config 0 (byte_to_char 255) = sep ++ ['0', 'x', h1, h2] ∧
      (hex_value h2).isSome = true := by
  refine ⟨print_byte_wide _, ?_⟩
  rintro ⟨sep, h1, h2, heq, hval⟩
  rw [print_byte_wide] at heq
  have e1 : (List.replicate 2147483647 ' ' ++ ['0', 'x']).getLast? = some 'x' :=
    getLast?_append_of_getLast? _ _ _ rfl
  have e2 : (sep ++ ['0', 'x', h1, h2]).getLast? = some h2 :=
    getLast?_append_of_getLast? _ _ _ rfl
  rw [heq, e2] at e1
  rw [Option.some.inj e1] at hval
  revert hval
  decide

/-- C3, amended: for every byte value b in 0..255 and every index in the
stream at which the call of `fprintf` has at most `INT_MAX` characters to
write, the text `print_content` writes for b is separators (comma, newline,
spaces) followed by the four characters `0`, `x` and two upper-case
hexadecimal digits, the first of value b / 16 and the second of value
b % 16; a file of the single byte b gives the padding followed by these four
characters, when the padding and they are at most `INT_MAX` characters. -/
theorem C3_literal_two_upper_hex_digits (cfg : config) (total_bytes b : Nat) (hb : b < 256)
    (hfit : byte_fits cfg total_bytes) :
    ∃ h1 h2 : Char,
      hex_value h1 = some (b / 16) ∧ hex_value h2 = some (b % 16) ∧
      hex_literal (byte_to_char b) = ['0', 'x', h1, h2] ∧
      (∃ sep, print_byte cfg total_bytes (byte_to_char b) = sep ++ ['0', 'x', h1, h2] ∧
        ∀ c ∈ sep, is_separator c = true) ∧
      (byte_fits cfg 0 →
        print_content (opened [b]) cfg =
          some (fmt_pad_empty (size_t_to_int cfg.indent) ++ ['0', 'x', h1, h2],
            at_end (opened [b]))) := by
  have hlit := hex_literal_eq (byte_to_char b)
  rw [to_uint8_byte_to_char b hb] at hlit
  refine ⟨hex_digit_upper (b / 16), hex_digit_upper (b % 16),
    hex_value_digit _ (by omega), hex_value_digit _ (by omega), hlit, ?_, ?_⟩
  · exact ⟨separator_text cfg total_bytes, by rw [print_byte_eq _ _ _ hfit, hlit],
      separator_text_is_separator cfg total_bytes⟩
  · intro hfit0
    rw [print_content_eq, remaining_chars_opened]
    simp only [List.map_cons, List.map_nil, print_buffer, print_byte_eq _ _ _ hfit0, hlit,
      List.append_nil]
    have hsep : separator_text cfg 0 = fmt_pad_empty (size_t_to_int cfg.indent) := by
      rw [fmt_pad_empty_eq (size_t_to_int cfg.indent)]
      simp [separator_text, pad_width]
    rw [hsep]

/-- C3, amended, at the byte 0xFF, the 17th of its stream. -/
theorem C3_literal_two_upper_hex_digits_witness :
    (255 : Nat) < 256 ∧ byte_fits config_s_default 16 ∧
    ∃ h1 h2 : Char,
      hex_value h1 = some (255 / 16) ∧ hex_value h2 = some (255 % 16) ∧
      hex_literal (byte_to_char 255) = ['0', 'x', h1, h2] ∧
      (∃ sep, print_byte config_s_default 16 (byte_to_char 255) = sep ++ ['0', 'x', h1, h2] ∧
        ∀ c ∈ sep, is_separator c = true) ∧
      (byte_fits config_s_default 0 →
        print_content (opened [255]) config_s_default =
          some (fmt_pad_empty (size_t_to_int config_s_default.indent) ++ ['0', 'x', h1, h2],
            at_end (opened [255]))) :=
  ⟨by decide, by decide,
    C3_literal_two_upper_hex_digits config_s_default 16 255 (by decide) (by decide)⟩

/-- C4 as stated fails: with the indent width `INT_MAX` the body of a
one-byte file ends with `0x`, not with the literal of the byte. -/
theorem C4_counterexample_body_ends_early :
    ∃ body input1, print_content (opened [171]) wide_config = some (body, input1) ∧
      body.getLast? = some 'x' ∧
      ¬ (hex_literal (byte_to_char 171) <:+ body) := by
  have e1 : (List.replicate 2147483647 ' ' ++ ['0', 'x']).getLast? = some 'x' :=
    getLast?_append_of_getLast? _ _ _ rfl
  refine ⟨_, _, print_content_wide 171, e1, ?_⟩
  rintro ⟨before, heq⟩
  have e2 : (before ++ hex_literal (byte_to_char 171)).getLast? = some 'B' :=
    getLast?_append_of_getLast? _ _ _ (by decide)
  rw [heq, e1] at e2
  exact absurd e2 (by decide)

/-- C4, amended: for the empty input `print_content` returns the empty
body; for every non-empty input for which the call of `fprintf` for the
final byte has at most `INT_MAX` characters to write (so always when the
final byte is not the first of a line), the body ends with the literal of
the final byte, nothing after it. -/
theorem C4_body_ends_with_last_literal (cfg : config) :
    print_content (opened []) cfg = some ([], opened []) ∧
    ∀ (bytes : List Nat) (b : Nat), byte_fits cfg bytes.length →
      ∃ before input1,
        print_content (opened (bytes ++ [b])) cfg =
          some (before ++ hex_literal (byte_to_char b), input1) := by
  constructor
  · rw [print_content_eq]; rfl
  · intro bytes b hfit
    refine ⟨(print_buffer cfg (bytes.map byte_to_char) 0).1 ++
      separator_text cfg (0 + (bytes.map byte_to_char).length),
      at_end (opened (bytes ++ [b])), ?_⟩
    have hfit1 : byte_fits cfg (0 + (bytes.map byte_to_char).length) := by
      rw [Nat.zero_add, List.length_map]
      exact hfit
    rw [print_content_eq, remaining_chars_opened, List.map_append, print_buffer_append]
    simp only [List.map_cons, List.map_nil, print_buffer, print_byte_eq _ _ _ hfit1,
      List.append_nil, List.append_assoc]

/-- C4, amended, at the 17 bytes 0x00..0x10 with the default configuration:
the body ends with `0x10`. -/
theorem C4_body_ends_with_last_literal_witness :
    byte_fits config_s_default (List.range 16).length ∧
    ∃ before input1,
      print_content (opened (List.range 16 ++ [16])) config_s_default =
        some (before ++ hex_literal (byte_to_char 16), input1) :=
  ⟨by decide,
    (C4_body_ends_with_last_literal config_s_default).2 (List.range 16) 16 (by decide)⟩
/-! ## The lines of the body -/

theorem intercalate_cons_eq (sep x : List Char) (xs : List (List Char)) :
    sep.intercalate (x :: xs) = x ++ (xs.map fun y => sep ++ y).flatten := by
  induction xs generalizing x with
  | nil => simp [List.intercalate]
  | cons y ys ih =>
    have := ih y
    simp only [List.intercalate] at this ⊢
    simp [List.intersperse, this]

/-- Inside a line: the bytes after the first are each written as a comma,
one space and the literal. -/
theorem whole_buffer_inside_line (cfg : config) (cs : List Int) (t : Nat)
    (h0 : t % 16 ≠ 0) (hlen : t % 16 + cs.length ≤ 16) :
    (whole_buffer cfg cs t) = (cs.map fun c => ", ".toList ++ hex_literal c).flatten := by
  induction cs generalizing t with
  | nil => simp [whole_buffer]
  | cons c rest ih =>
    rw [whole_buffer_cons]
    have ht : t ≠ 0 := by intro h; subst h; simp at h0
    have hsep : separator_text cfg t = ", ".toList := by
      simp [separator_text, h0, ht]
    rw [hsep]
    simp only [List.length_cons] at hlen
    by_cases hr : rest = []
    · subst hr; simp [whole_buffer]
    · have hl : 0 < rest.length := List.length_pos.mpr hr
      rw [ih (t + 1) (by omega) (by omega)]
      simp

/-- What is written before the first byte of a line that starts at index `t`. -/
theorem whole_buffer_line (cfg : config) (c : Int) (cs : List Int) (t : Nat)
    (h0 : t % 16 = 0) (hlen : cs.length ≤ 15) :
    (whole_buffer cfg (c :: cs) t) =
      (if t = 0 then [] else [',', '\n']) ++
        (List.replicate (pad_width cfg) ' ' ++
          ", ".toList.intercalate ((c :: cs).map hex_literal)) := by
  rw [whole_buffer_cons, whole_buffer_inside_line cfg cs (t + 1) (by omega) (by omega),
    List.map_cons, intercalate_cons_eq, List.map_map]
  by_cases ht : t = 0
  · subst ht
    simp [separator_text, Function.comp_def]
  · simp [separator_text, h0, ht, Function.comp_def]

/-- The text of the bytes from the line of index `j` on. -/
theorem whole_buffer_from_line (cfg : config) (bytes : List Nat) (j : Nat)
    (hj : j < line_count bytes.length) :
    (whole_buffer cfg ((bytes.drop (16 * j)).map byte_to_char) (16 * j)) =
      (if j = 0 then [] else [',', '\n']) ++
        (List.replicate (pad_width cfg) ' ' ++
          ", ".toList.intercalate
            ((line_bytes bytes j).map fun b => hex_literal (byte_to_char b))) ++
        (whole_buffer cfg ((bytes.drop (16 * (j + 1))).map byte_to_char) (16 * (j + 1))) := by
  unfold line_count at hj
  have hsplit : bytes.drop (16 * j) = line_bytes bytes j ++ bytes.drop (16 * (j + 1)) := by
    unfold line_bytes
    conv_lhs => rw [← List.take_append_drop 16 (bytes.drop (16 * j))]
    rw [List.drop_drop]
    congr 2
  have hlen : (line_bytes bytes j).length = min 16 (bytes.length - 16 * j) := by
    simp [line_bytes]
  conv_lhs => rw [hsplit]
  rw [List.map_append, whole_buffer_append]
  have hnext : (whole_buffer cfg ((bytes.drop (16 * (j + 1))).map byte_to_char)
      (16 * j + ((line_bytes bytes j).map byte_to_char).length)) =
      (whole_buffer cfg ((bytes.drop (16 * (j + 1))).map byte_to_char) (16 * (j + 1))) := by
    by_cases hlast : bytes.length ≤ 16 * (j + 1)
    · rw [List.drop_eq_nil_of_le hlast]; simp [whole_buffer]
    · rw [List.length_map, hlen]
      congr 2
      omega
  rw [hnext]
  congr 1
  cases hlb : line_bytes bytes j with
  | nil =>
    rw [hlb] at hlen
    simp at hlen
    omega
  | cons b rest =>
    rw [hlb] at hlen
    simp only [List.length_cons] at hlen
    rw [List.map_cons, whole_buffer_line cfg _ _ _ (by omega) (by simp only [List.length_map]; omega)]
    have hj0 : (16 * j = 0) = (j = 0) := by
      apply propext; omega
    simp only [hj0, List.map_cons, List.map_map, Function.comp_def]

theorem not_mem_hex_literal_newline (c : Int) : '\n' ∉ hex_literal c :=
  List.count_eq_zero.mp (count_hex_literal c '\n' (by decide))

theorem not_mem_line_newline (w : Nat) (bytes : List Nat) (tail : List Char)
    (htail : '\n' ∉ tail) :
    ∀ x ∈ List.replicate w ' ' ++
        ", ".toList.intercalate (bytes.map fun b => hex_literal (byte_to_char b)) ++ tail,
      ¬ ((x == '\n') = true) := by
  intro x hx hn
  rw [beq_iff_eq] at hn
  subst hn
  simp only [List.mem_append] at hx
  rcases hx with (hx | hx) | hx
  · simp at hx
  · cases bytes with
    | nil => simp [List.intercalate] at hx
    | cons c cs =>
      rw [List.map_cons, intercalate_cons_eq] at hx
      simp only [List.mem_append, List.mem_flatten, List.mem_map] at hx
      rcases hx with hx | ⟨l, ⟨y, hy, rfl⟩, hx⟩
      · exact not_mem_hex_literal_newline _ hx
      · obtain ⟨d, _, rfl⟩ := hy
        simp only [List.mem_append] at hx
        rcases hx with hx | hx
        · revert hx; decide
        · exact not_mem_hex_literal_newline _ hx
  · exact htail hx
/-- The line of index `k` with the padding `printf` really writes. -/
theorem spec_line_splits (cfg : config) (bytes : List Nat) (m : Nat) :
    ∀ j, j + m + 1 = line_count bytes.length →
      List.splitOn '\n'
        (List.replicate (pad_width cfg) ' ' ++
          ", ".toList.intercalate
            ((line_bytes bytes j).map fun b => hex_literal (byte_to_char b)) ++
          (whole_buffer cfg ((bytes.drop (16 * (j + 1))).map byte_to_char) (16 * (j + 1)))) =
      (List.range' j (m + 1)).map (spec_line (pad_width cfg) bytes) := by
  induction m with
  | zero =>
    intro j hj
    have hdrop : bytes.drop (16 * (j + 1)) = [] := by
      apply List.drop_eq_nil_of_le
      unfold line_count at hj
      omega
    have hlast : ¬ (j + 1 < line_count bytes.length) := by omega
    rw [hdrop]
    simp only [List.map_nil, whole_buffer, Nat.zero_add, List.range'_one, List.map_cons,
      spec_line, hlast, if_false, List.splitOn]
    exact List.splitOnP_eq_single _ _
      (not_mem_line_newline _ _ [] (List.not_mem_nil _))
  | succ m ih =>
    intro j hj
    have hnext : j + 1 < line_count bytes.length := by omega
    rw [whole_buffer_from_line cfg bytes (j + 1) hnext]
    have hne : (j + 1 = 0) = False := by simp
    simp only [hne, if_false]
    have hsplit := List.splitOnP_first (· == '\n')
      (List.replicate (pad_width cfg) ' ' ++
          ", ".toList.intercalate
            ((line_bytes bytes j).map fun b => hex_literal (byte_to_char b)) ++ [','])
      (not_mem_line_newline _ _ [','] (by decide))
      '\n' (by simp)
      (List.replicate (pad_width cfg) ' ' ++
          ", ".toList.intercalate
            ((line_bytes bytes (j + 1)).map fun b => hex_literal (byte_to_char b)) ++
          (whole_buffer cfg ((bytes.drop (16 * (j + 1 + 1))).map byte_to_char)
            (16 * (j + 1 + 1))))
    have ih1 := ih (j + 1) (by omega)
    simp only [List.splitOn] at ih1 ⊢
    have key : ∀ A B C : List Char,
        A ++ ([',', '\n'] ++ B ++ C) = (A ++ [',']) ++ '\n' :: (B ++ C) := by
      intro A B C; simp
    rw [List.range'_succ, List.map_cons, ← ih1, key, hsplit]
    simp only [spec_line, hnext, if_true]

theorem body_lines (cfg : config) (bytes : List Nat) (hne : bytes ≠ []) :
    List.splitOn '\n' (whole_buffer cfg (bytes.map byte_to_char) 0) =
      (List.range (line_count bytes.length)).map
        (spec_line (pad_width cfg) bytes) := by
  have hpos : 0 < bytes.length := List.length_pos.mpr hne
  have hlc : 0 < line_count bytes.length := by unfold line_count; omega
  have h0 := whole_buffer_from_line cfg bytes 0 hlc
  simp only [Nat.mul_zero, List.drop_zero, if_true, List.nil_append] at h0
  rw [h0, List.range_eq_range']
  have := spec_line_splits cfg bytes (line_count bytes.length - 1) 0 (by omega)
  rw [this]
  congr 2
  omega
theorem line_bytes_length (bytes : List Nat) (k : Nat) :
    (line_bytes bytes k).length = min 16 (bytes.length - 16 * k) := by
  simp [line_bytes]

theorem newline_mem_print_byte (cfg : config) (t : Nat) (c : Int) :
    '\n' ∈ print_byte cfg t c ↔ t % 16 = 0 ∧ 0 < t := by
  rw [← List.count_pos_iff,
    count_separator_print_byte cfg t c '\n' (by decide), count_newline_separator_text]
  constructor
  · intro hpos
    split at hpos
    · rename_i hc; exact ⟨hc.1, Nat.pos_of_ne_zero hc.2⟩
    · omega
  · rintro ⟨h16, h0⟩
    rw [if_pos ⟨h16, by omega⟩]
    decide

/-- C2 as stated fails: with the indent width 2^64 - 3 (what `-i -3` leaves
in the `size_t`) the body of a one-byte file is three spaces and the
literal, so its line does not begin with that many spaces. -/
theorem C2_counterexample_indent_beyond_int :
    print_content (opened [0]) { config_s_default with indent := 18446744073709551613 } =
      some ("   0x00".toList, at_end (opened [0])) ∧
    ¬ (List.replicate 18446744073709551613 ' ' <+: "   0x00".toList) := by
  constructor
  · decide
  · intro h
    have h1 := h.length_le
    rw [List.length_replicate] at h1
    have h2 : "   0x00".toList.length = 7 := by decide
    omega

/-- C2, amended: for every non-empty input and every indent width w for
which no call of `fprintf` has more than `INT_MAX` characters to write
(w + 4 is at most `INT_MAX`, and w + 6 is when the input has more than 16
bytes), `print_content` returns a body whose split at newlines is the list
of the lines of the specification: w spaces, the literals of the 16 bytes of
the line (1 to 16 on the last line) with a comma and one space before each
literal but the first, and a comma at the end of every line but the last;
whatever the width, a newline is written only before a byte whose index is
a positive multiple of 16.  The 17 bytes 0x00..0x10 with the default width 4
give 16 values, a comma, a newline, four spaces and 0x10. -/
theorem C2_lines_of_body (cfg : config) (bytes : List Nat) (hne : bytes ≠ [])
    (hw : cfg.indent + 4 ≤ INT_MAX) (hw2 : 16 < bytes.length → cfg.indent + 6 ≤ INT_MAX) :
    (∃ body input1, print_content (opened bytes) cfg = some (body, input1) ∧
      List.splitOn '\n' body =
        (List.range (line_count bytes.length)).map (spec_line cfg.indent bytes)) ∧
    (∀ k, k + 1 < line_count bytes.length → (line_bytes bytes k).length = 16) ∧
    1 ≤ (line_bytes bytes (line_count bytes.length - 1)).length ∧
    (line_bytes bytes (line_count bytes.length - 1)).length ≤ 16 ∧
    (∀ t c, '\n' ∈ print_byte cfg t c ↔ t % 16 = 0 ∧ 0 < t) ∧
    print_content (opened (List.range 17)) config_s_default =
      some (("    0x00, 0x01, 0x02, 0x03, 0x04, 0x05, 0x06, 0x07, 0x08, 0x09, 0x0A, 0x0B, " ++
        "0x0C, 0x0D, 0x0E, 0x0F,\n    0x10").toList, at_end (opened (List.range 17))) := by
  have hpos : 0 < bytes.length := List.length_pos.mpr hne
  have hpad : pad_width cfg = cfg.indent := pad_width_eq cfg (by unfold INT_MAX at hw; omega)
  have hfit : fits_fprintf cfg bytes.length := by
    unfold fits_fprintf
    rw [hpad]
    exact ⟨fun _ => hw, hw2⟩
  refine ⟨⟨_, _, print_content_eq _ _, ?_⟩, ?_, ?_, ?_, newline_mem_print_byte cfg, by decide⟩
  · have hbody := body_of_eq_whole cfg bytes hfit
    unfold body_of at hbody
    rw [hbody, body_lines cfg bytes hne, hpad]
  · intro k hk
    rw [line_bytes_length]
    unfold line_count at hk
    omega
  · rw [line_bytes_length]
    unfold line_count
    omega
  · rw [line_bytes_length]
    omega

/-- C2, amended, at the 17 bytes 0x00..0x10 with the default configuration. -/
theorem C2_lines_of_body_witness :
    List.range 17 ≠ [] ∧ config_s_default.indent + 4 ≤ INT_MAX ∧
    (16 < (List.range 17).length → config_s_default.indent + 6 ≤ INT_MAX) ∧
    (∃ body input1, print_content (opened (List.range 17)) config_s_default =
        some (body, input1) ∧
      List.splitOn '\n' body =
        (List.range (line_count (List.range 17).length)).map
          (spec_line config_s_default.indent (List.range 17))) :=
  ⟨by decide, by decide, by decide,
    (C2_lines_of_body config_s_default (List.range 17) (by decide) (by decide) (by decide)).1⟩
/-! ## Header names -/

theorem strrchr_append (xs ys : List Char) (ch : Char) :
    strrchr (xs ++ ys) ch =
      match strrchr ys ch with
      | some i => some (xs.length + i)
      | none => strrchr xs ch := by
  induction xs with
  | nil => cases h : strrchr ys ch <;> simp [strrchr, h]
  | cons c xs ih =>
    rw [List.cons_append, strrchr, ih]
    cases h : strrchr ys ch with
    | none => simp [strrchr]
    | some i => simp only [List.length_cons, Option.some.injEq]; omega

theorem strrchr_dot_h (stem : List Char) :
    strrchr (stem ++ ".h".toList) '.' = some stem.length := by
  rw [strrchr_append]
  have : strrchr ".h".toList '.' = some 0 := by decide
  rw [this]
  rfl

theorem strrchr_dot_hpp (stem : List Char) :
    strrchr (stem ++ ".hpp".toList) '.' = some stem.length := by
  rw [strrchr_append]
  have : strrchr ".hpp".toList '.' = some 0 := by decide
  rw [this]
  rfl

theorem is_header_file_iff (p : List Char) :
    is_header_file p = true ↔ (".h".toList <:+ p ∨ ".hpp".toList <:+ p) := by
  constructor
  · intro h
    unfold is_header_file at h
    split at h
    · simp at h
    · rename_i dot hdot
      simp only [Bool.or_eq_true, beq_iff_eq] at h
      rcases h with h | h
      · left; rw [← h]; exact List.drop_suffix _ _
      · right; rw [← h]; exact List.drop_suffix _ _
  · rintro (⟨stem1, rfl⟩ | ⟨stem1, rfl⟩)
    · unfold is_header_file
      rw [strrchr_dot_h]
      simp
    · unfold is_header_file
      rw [strrchr_dot_hpp]
      simp

theorem convert_dot_h (stem : List Char) :
    convert_header_name_to_source_name (stem ++ ".h".toList) = some (stem ++ ".c".toList) := by
  unfold convert_header_name_to_source_name
  rw [strrchr_dot_h]
  simp [List.getElem?_append_right, List.getElem_append_right, List.set_append]

theorem convert_dot_hpp (stem : List Char) :
    convert_header_name_to_source_name (stem ++ ".hpp".toList) =
      some (stem ++ ".cpp".toList) := by
  unfold convert_header_name_to_source_name
  rw [strrchr_dot_hpp]
  simp [List.getElem?_append_right, List.getElem_append_right, List.set_append]

/-- C6: `is_header_file` holds exactly of the names that end in `.h` or in
`.hpp`; and for every such name `convert_header_name_to_source_name` finds
the last `.` and returns the name with the final `.h` replaced by `.c`, or
the final `.hpp` by `.cpp`, everything before it unchanged and the length
the same. -/
theorem C6_header_names (p stem : List Char) :
    (is_header_file p = true ↔ (".h".toList <:+ p ∨ ".hpp".toList <:+ p)) ∧
    convert_header_name_to_source_name (stem ++ ".h".toList) = some (stem ++ ".c".toList) ∧
    convert_header_name_to_source_name (stem ++ ".hpp".toList) =
      some (stem ++ ".cpp".toList) ∧
    (stem ++ ".c".toList).length = (stem ++ ".h".toList).length ∧
    (stem ++ ".cpp".toList).length = (stem ++ ".hpp".toList).length :=
  ⟨is_header_file_iff p, convert_dot_h stem, convert_dot_hpp stem, by simp, by simp⟩

/-! ## The emitter -/

theorem calculate_file_size_eq (input : FILE) :
    calculate_file_size input = (input.data.length, input) := by
  simp [calculate_file_size, ftell, fseek_end, fseek_set]

theorem print_source_code_declaration (input : FILE) (cfg : config) (name lm : List Char)
    (h : cfg.input_filename = some name) :
    print_source_code input TYPE_DECLARATION cfg lm =
      some (declaration_fragment cfg name input.data.length lm, input) := by
  simp [print_source_code, h, calculate_file_size_eq, TYPE_DECLARATION, TYPE_DEFINITION,
    declaration_fragment, guard_of, symbol_of, print_last_modified, EMPTY]

theorem print_source_code_definition (input : FILE) (cfg : config) (name lm : List Char)
    (h : cfg.input_filename = some name) :
    print_source_code input TYPE_DEFINITION cfg lm =
      some (definition_fragment cfg name input.data.length (body_of cfg input),
        at_end input) := by
  cases hp : cfg.progmem <;>
  simp [print_source_code, h, calculate_file_size_eq, TYPE_DECLARATION, TYPE_DEFINITION,
    definition_fragment, guard_of, symbol_of, print_last_modified, EMPTY, print_content_eq,
    body_of, import_of, modifier_of, hp]

theorem print_source_code_combined (input : FILE) (cfg : config) (name lm : List Char)
    (h : cfg.input_filename = some name) :
    print_source_code input (TYPE_DECLARATION ||| TYPE_DEFINITION) cfg lm =
      some (combined_fragment cfg name input.data.length lm (body_of cfg input),
        at_end input) := by
  cases hp : cfg.progmem <;>
  simp [print_source_code, h, calculate_file_size_eq, TYPE_DECLARATION, TYPE_DEFINITION,
    combined_fragment, guard_of, symbol_of, print_last_modified, EMPTY, print_content_eq,
    body_of, import_of, modifier_of, hp]
theorem getLast?_append_newline (xs : List Char) :
    (xs ++ "\n".toList).getLast? = some '\n' :=
  getLast?_append_of_getLast? _ _ _ rfl

theorem getLast?_append_import_of (cfg : config) (xs : List Char) :
    (xs ++ "\n".toList ++ import_of cfg).getLast? = some '\n' := by
  cases hp : cfg.progmem
  · have : import_of cfg = [] := by simp [import_of, hp]
    rw [this, List.append_nil]
    exact getLast?_append_newline _
  · have : import_of cfg = PROGMEM_IMPORT := by simp [import_of, hp]
    rw [this]
    exact getLast?_append_of_getLast? _ _ _ rfl

/-- C7: for every configuration with an input file name, every input
stream and each of the three emission kinds, `print_source_code` writes, at
the start of a line, the array declaration: `extern ` (Declaration-only),
nothing (Definition-only) or `static ` (both), then `const unsigned char `,
the lowercase symbol of the input file name, `[N]` with N the size of the
file, and the suffix ` PROGMEM` exactly when the modifier is requested and
the kind includes Definition; the declaration is followed by `;` or by the
initialiser. -/
theorem C7_array_declaration (input : FILE) (cfg : config) (name lm : List Char)
    (h : cfg.input_filename = some name) :
    (∃ before after,
      print_source_code input TYPE_DECLARATION cfg lm =
        some (before ++ array_declaration "extern ".toList name input.data.length [] ++
          ";\n".toList ++ after, input) ∧
      before.getLast? = some '\n') ∧
    (∃ before,
      print_source_code input TYPE_DEFINITION cfg lm =
        some (before ++
          array_declaration [] name input.data.length
            (if cfg.progmem then " PROGMEM".toList else []) ++
          " = \x7b\n".toList ++ body_of cfg input ++ "\x7d;\n".toList, at_end input) ∧
      before.getLast? = some '\n') ∧
    (∃ before,
      print_source_code input (TYPE_DECLARATION ||| TYPE_DEFINITION) cfg lm =
        some (before ++
          array_declaration "static ".toList name input.data.length
            (if cfg.progmem then " PROGMEM".toList else []) ++
          " = \x7b\n".toList ++ body_of cfg input ++ "\x7d;\n".toList, at_end input) ∧
      before.getLast? = some '\n') := by
  refine ⟨⟨HEADER_COMMENT (get_basename name) input.data.length ++
        INCLUDE_GUARD (guard_of cfg) (guard_of cfg) ++
        (ARRAY_LAST_MODIFIED_DEFINITION (symbol_of name) lm ++ "\n".toList) ++
        (ARRAY_SIZE_DEFINITION (symbol_of name) input.data.length ++ "\n".toList),
      "\n".toList ++ INCLUDE_GUARD_END (guard_of cfg), ?_, ?_⟩,
    ⟨HEADER_COMMENT (get_basename name) input.data.length ++
        (INLCUDE_HEADER_FILE (get_basename cfg.output_filename) ++ "\n".toList) ++
        import_of cfg, ?_, ?_⟩,
    ⟨HEADER_COMMENT (get_basename name) input.data.length ++
        (ARRAY_LAST_MODIFIED_DEFINITION (symbol_of name) lm ++ "\n".toList) ++
        (ARRAY_SIZE_DEFINITION (symbol_of name) input.data.length ++ "\n".toList) ++
        import_of cfg, ?_, ?_⟩⟩
  · rw [print_source_code_declaration input cfg name lm h]
    unfold declaration_fragment
    simp only [ARRAY_DECLARATION, array_declaration, symbol_of, List.append_assoc]
  · exact getLast?_append_of_getLast? _ _ _ (getLast?_append_newline _)
  · rw [print_source_code_definition input cfg name lm h]
    simp only [definition_fragment, ARRAY_DECLARATION, array_declaration, symbol_of,
      modifier_of, List.append_assoc]
    rfl
  · rw [← List.append_assoc]
    exact getLast?_append_import_of cfg _
  · rw [print_source_code_combined input cfg name lm h]
    simp only [combined_fragment, ARRAY_DECLARATION, array_declaration, symbol_of,
      modifier_of, List.append_assoc]
    rfl
  · rw [← List.append_assoc]
    exact getLast?_append_import_of cfg _
/-- C7 for the 17 bytes of `data.bin` and the default configuration: the
header declares `extern const unsigned char data_bin[17]`. -/
theorem C7_array_declaration_witness :
    sample_config.input_filename = some "data.bin".toList ∧
    ∃ before after,
      print_source_code (opened (List.range 17)) TYPE_DECLARATION sample_config sample_time =
        some (before ++ "extern const unsigned char data_bin[17]".toList ++
          ";\n".toList ++ after, opened (List.range 17)) ∧
      before.getLast? = some '\n' :=
  ⟨rfl, (C7_array_declaration (opened (List.range 17)) sample_config "data.bin".toList
    sample_time rfl).1⟩

/-! ## Where a `#` of a fragment can come from -/

theorem occurs_after_of_isInfix (a : Char) (p text : List Char) (h : (a :: p) <:+: text) :
    occurs_after a p text = true := by
  obtain ⟨s, t, rfl⟩ := h
  induction s with
  | nil =>
    simp only [List.nil_append, List.cons_append, occurs_after, beq_self_eq_true, Bool.true_and,
      Bool.or_eq_true]
    left
    rw [List.isPrefixOf_iff_prefix]
    exact List.prefix_append p t
  | cons c s ih =>
    simp only [List.cons_append, occurs_after, Bool.or_eq_true]
    right
    simpa using ih

theorem occurs_after_append_of_not_mem (a : Char) (p xs rest : List Char) (h : a ∉ xs) :
    occurs_after a p (xs ++ rest) = occurs_after a p rest := by
  induction xs with
  | nil => rfl
  | cons c xs ih =>
    have hc : (c == a) = false := by
      rw [beq_eq_false_iff_ne]
      intro hca
      exact h (hca ▸ List.mem_cons_self _ _)
    simp only [List.cons_append, occurs_after, hc, Bool.false_and, Bool.false_or]
    exact ih (fun hm => h (List.mem_cons_of_mem _ hm))

theorem digitChar_ne_sharp : ∀ d, d < 10 → Nat.digitChar d ≠ '#' := by
  decide

theorem toDigitsCore_no_sharp (f : Nat) : ∀ (n : Nat) (ds : List Char),
    '#' ∉ ds → '#' ∉ Nat.toDigitsCore 10 f n ds := by
  induction f with
  | zero => intro n ds h; simpa [Nat.toDigitsCore] using h
  | succ f ih =>
    intro n ds h
    have hcons : '#' ∉ Nat.digitChar (n % 10) :: ds := by
      intro hm
      rcases List.mem_cons.mp hm with hm | hm
      · exact digitChar_ne_sharp _ (Nat.mod_lt n (by decide)) hm.symm
      · exact h hm
    simp only [Nat.toDigitsCore]
    split
    · exact hcons
    · exact ih _ _ hcons

theorem fmt_lu_no_sharp (n : Nat) : '#' ∉ fmt_lu n :=
  toDigitsCore_no_sharp _ _ _ (List.not_mem_nil _)
theorem char_le_iff (a b : Char) : a ≤ b ↔ a.toNat ≤ b.toNat := by
  rw [Char.le_def]
  exact Iff.rfl

set_option maxRecDepth 100000 in
theorem ofNat_upper_ne_sharp : ∀ k, k < 123 → 97 ≤ k → Char.ofNat (k - 32) ≠ '#' := by
  decide

set_option maxRecDepth 100000 in
theorem ofNat_lower_ne_sharp : ∀ k, k < 91 → 65 ≤ k → Char.ofNat (k + 32) ≠ '#' := by
  decide

theorem toupper_eq_sharp (c : Char) (h : toupper c = '#') : c = '#' := by
  unfold toupper at h
  split at h
  · rename_i hr
    rw [char_le_iff, char_le_iff] at hr
    have h1 : 97 ≤ c.toNat := hr.1
    have h2 : c.toNat ≤ 122 := hr.2
    exact absurd h (ofNat_upper_ne_sharp c.toNat (by omega) h1)
  · exact h

theorem tolower_eq_sharp (c : Char) (h : tolower c = '#') : c = '#' := by
  unfold tolower at h
  split at h
  · rename_i hr
    rw [char_le_iff, char_le_iff] at hr
    have h1 : 65 ≤ c.toNat := hr.1
    have h2 : c.toNat ≤ 90 := hr.2
    exact absurd h (ofNat_lower_ne_sharp c.toNat (by omega) h1)
  · exact h

theorem get_varname_loop_no_sharp (name : List Char) (length : Nat) (h : '#' ∉ name) :
    '#' ∉ get_varname_loop name length := by
  induction name generalizing length with
  | nil => simp [get_varname_loop]
  | cons c name ih =>
    cases length with
    | zero => simp [get_varname_loop]
    | succ n =>
      simp only [get_varname_loop, List.mem_cons, not_or]
      refine ⟨?_, ih n (fun hm => h (List.mem_cons_of_mem _ hm))⟩
      intro heq
      split at heq
      · exact absurd heq (by decide)
      · exact h (toupper_eq_sharp c heq.symm ▸ List.mem_cons_self _ _)

theorem symbol_of_no_sharp (name : List Char) (h : '#' ∉ get_basename name) :
    '#' ∉ symbol_of name :=
  get_varname_loop_no_sharp _ _ h

theorem lowercase_no_sharp (s : List Char) (h : '#' ∉ s) :
    '#' ∉ transform_to_lowercase s := by
  intro hm
  obtain ⟨c, hc, heq⟩ := List.mem_map.mp hm
  exact h (tolower_eq_sharp c heq ▸ hc)

set_option maxRecDepth 100000 in
theorem hex_digit_upper_ne_sharp : ∀ d, d < 16 → hex_digit_upper d ≠ '#' := by
  decide

theorem print_byte_no_sharp (cfg : config) (t : Nat) (c : Int) :
    '#' ∉ print_byte cfg t c := by
  obtain ⟨tail, h1, h2⟩ := print_byte_split cfg t c
  rw [h1, List.mem_append]
  rintro (hm | hm)
  · exact absurd (separator_text_is_separator cfg t _ hm) (by decide)
  · have hlit := h2.subset hm
    rw [hex_literal_eq] at hlit
    simp only [List.mem_cons, List.not_mem_nil, or_false] at hlit
    rcases hlit with h | h | h | h
    · exact absurd h (by decide)
    · exact absurd h (by decide)
    · exact hex_digit_upper_ne_sharp _ (to_uint8_div_lt c) h.symm
    · exact hex_digit_upper_ne_sharp _ (Nat.mod_lt _ (by decide)) h.symm

theorem print_buffer_no_sharp (cfg : config) (cs : List Int) (t : Nat) :
    '#' ∉ (print_buffer cfg cs t).1 := by
  induction cs generalizing t with
  | nil => simp [print_buffer]
  | cons c rest ih =>
    simp only [print_buffer, List.mem_append, not_or]
    exact ⟨print_byte_no_sharp cfg t c, ih _⟩
theorem occurs_after_define_include (rest : List Char) :
    occurs_after '#' "define".toList ("#include \"".toList ++ rest) =
      occurs_after '#' "define".toList rest := by
  rfl

theorem occurs_after_define_import (rest : List Char) :
    occurs_after '#' "define".toList (PROGMEM_IMPORT ++ rest) =
      occurs_after '#' "define".toList rest := by
  rfl

theorem definition_fragment_no_define (cfg : config) (name body : List Char) (size : Nat)
    (h1 : '#' ∉ get_basename name) (h2 : '#' ∉ get_basename cfg.output_filename)
    (h3 : '#' ∉ body) :
    ¬ ("#define".toList <:+: definition_fragment cfg name size body) := by
  intro h
  have hocc := occurs_after_of_isInfix '#' "define".toList _ h
  have h4 := fmt_lu_no_sharp size
  have h5 := lowercase_no_sharp _ (symbol_of_no_sharp name h1)
  have hfalse : occurs_after '#' "define".toList (definition_fragment cfg name size body)
      = false := by
    cases hp : cfg.progmem <;>
    simp only [definition_fragment, HEADER_COMMENT, INLCUDE_HEADER_FILE, ARRAY_DECLARATION,
      import_of, modifier_of, hp, List.append_assoc, if_true, if_false, Bool.false_eq_true,
      List.nil_append] <;>
    repeat (first
      | rw [occurs_after_define_include]
      | rw [occurs_after_define_import]
      | rw [occurs_after_append_of_not_mem _ _ _ _ (by assumption)]
      | rw [occurs_after_append_of_not_mem _ _ _ _ (by decide)]
      | rfl)
  rw [hfalse] at hocc
  exact absurd hocc (by decide)
theorem body_of_no_sharp (cfg : config) (input : FILE) : '#' ∉ body_of cfg input :=
  print_buffer_no_sharp cfg _ 0

theorem count_literals_body_of (cfg : config) (bytes : List Nat)
    (h : fits_fprintf cfg bytes.length) :
    count_literals (body_of cfg (opened bytes)) = bytes.length := by
  rw [body_of_eq_whole cfg bytes h, count_literals_whole_buffer, List.length_map]

/-- The Definition-only fragment up to the declared size, the size in
brackets, the suffix, the initialiser. -/
theorem definition_declares_size (input : FILE) (cfg : config) (name lm : List Char)
    (h : cfg.input_filename = some name) :
    ∃ before,
      print_source_code input TYPE_DEFINITION cfg lm =
        some (before ++ "[".toList ++ fmt_lu input.data.length ++ "]".toList ++
          modifier_of cfg ++ " = \x7b\n".toList ++ body_of cfg input ++ "\x7d;\n".toList,
          at_end input) := by
  refine ⟨HEADER_COMMENT (get_basename name) input.data.length ++
    (INLCUDE_HEADER_FILE (get_basename cfg.output_filename) ++ "\n".toList) ++
    import_of cfg ++ "const unsigned char ".toList ++
    transform_to_lowercase (symbol_of name), ?_⟩
  rw [print_source_code_definition _ cfg name lm h]
  simp only [definition_fragment, ARRAY_DECLARATION, List.append_assoc, List.nil_append]
  rfl

/-- C8 as stated fails: with the indent width `INT_MAX` the Definition-only
fragment written for a one-byte file declares the array with size 1, and
its initialiser, the padding and `0x`, holds no literal. -/
theorem C8_counterexample_size_without_literal :
    (∃ before,
      print_source_code (opened [0]) TYPE_DEFINITION wide_config sample_time =
        some (before ++ "[".toList ++ fmt_lu 1 ++ "]".toList ++ modifier_of wide_config ++
          " = \x7b\n".toList ++ body_of wide_config (opened [0]) ++ "\x7d;\n".toList,
          at_end (opened [0]))) ∧
    body_of wide_config (opened [0]) = List.replicate 2147483647 ' ' ++ ['0', 'x'] ∧
    count_literals (body_of wide_config (opened [0])) = 0 :=
  ⟨definition_declares_size (opened [0]) wide_config "data.bin".toList sample_time rfl,
    body_of_wide 0, by rw [body_of_wide]; exact count_literals_wide_body⟩

/-- C8, amended: for every input of N bytes and every configuration with an
input file name: the Declaration-only and the combined fragment contain, at
the start of a line, `#define <SYM>_LEN <N>`; the Definition-only fragment
is made of the header comment, the include, the optional import block, the
array declaration and the initialiser, so that, the file names holding no
`#`, no `#define` occurs in it; in the Definition-only and the combined
fragment the array is declared with size N; and the body that initialises
it holds exactly N literals when no call of `fprintf` has more than
`INT_MAX` characters to write (p being the number of spaces written for the
indent width: p + 4 at most `INT_MAX` when N > 0, p + 6 when N > 16). -/
theorem C8_size_constant (bytes : List Nat) (cfg : config) (name lm : List Char)
    (h : cfg.input_filename = some name) :
    (∃ before after,
      print_source_code (opened bytes) TYPE_DECLARATION cfg lm =
        some (before ++ size_line name bytes.length ++ after, opened bytes) ∧
      before.getLast? = some '\n') ∧
    (∃ before after,
      print_source_code (opened bytes) (TYPE_DECLARATION ||| TYPE_DEFINITION) cfg lm =
        some (before ++ size_line name bytes.length ++ after, at_end (opened bytes)) ∧
      before.getLast? = some '\n') ∧
    (print_source_code (opened bytes) TYPE_DEFINITION cfg lm =
        some (definition_fragment cfg name bytes.length (body_of cfg (opened bytes)),
          at_end (opened bytes)) ∧
      ('#' ∉ get_basename name → '#' ∉ get_basename cfg.output_filename →
        ¬ ("#define".toList <:+:
          definition_fragment cfg name bytes.length (body_of cfg (opened bytes))))) ∧
    (∃ before,
      print_source_code (opened bytes) TYPE_DEFINITION cfg lm =
        some (before ++ "[".toList ++ fmt_lu bytes.length ++ "]".toList ++ modifier_of cfg ++
          " = \x7b\n".toList ++ body_of cfg (opened bytes) ++ "\x7d;\n".toList,
          at_end (opened bytes))) ∧
    (∃ before,
      print_source_code (opened bytes) (TYPE_DECLARATION ||| TYPE_DEFINITION) cfg lm =
        some (before ++ "[".toList ++ fmt_lu bytes.length ++ "]".toList ++ modifier_of cfg ++
          " = \x7b\n".toList ++ body_of cfg (opened bytes) ++ "\x7d;\n".toList,
          at_end (opened bytes))) ∧
    (fits_fprintf cfg bytes.length →
      count_literals (body_of cfg (opened bytes)) = bytes.length) := by
  have hlen : (opened bytes).data.length = bytes.length := rfl
  refine ⟨⟨HEADER_COMMENT (get_basename name) bytes.length ++
        INCLUDE_GUARD (guard_of cfg) (guard_of cfg) ++
        (ARRAY_LAST_MODIFIED_DEFINITION (symbol_of name) lm ++ "\n".toList),
      "\n".toList ++ ARRAY_DECLARATION "extern ".toList
        (transform_to_lowercase (symbol_of name)) bytes.length [] ++ ";\n".toList ++
        ("\n".toList ++ INCLUDE_GUARD_END (guard_of cfg)), ?_, ?_⟩,
    ⟨HEADER_COMMENT (get_basename name) bytes.length ++
        (ARRAY_LAST_MODIFIED_DEFINITION (symbol_of name) lm ++ "\n".toList),
      "\n".toList ++ import_of cfg ++ ARRAY_DECLARATION "static ".toList
        (transform_to_lowercase (symbol_of name)) bytes.length (modifier_of cfg) ++
        " = \x7b\n".toList ++ body_of cfg (opened bytes) ++ "\x7d".toList ++ ";\n".toList,
      ?_, ?_⟩,
    ⟨?_, ?_⟩,
    definition_declares_size (opened bytes) cfg name lm h,
    ⟨HEADER_COMMENT (get_basename name) bytes.length ++
        (ARRAY_LAST_MODIFIED_DEFINITION (symbol_of name) lm ++ "\n".toList) ++
        (ARRAY_SIZE_DEFINITION (symbol_of name) bytes.length ++ "\n".toList) ++
        import_of cfg ++ "static ".toList ++ "const unsigned char ".toList ++
        transform_to_lowercase (symbol_of name), ?_⟩,
    count_literals_body_of cfg bytes⟩
  · rw [print_source_code_declaration _ cfg name lm h, hlen]
    simp only [declaration_fragment, size_line, ARRAY_SIZE_DEFINITION, symbol_of,
      List.append_assoc]
  · exact getLast?_append_of_getLast? _ _ _ (getLast?_append_newline _)
  · rw [print_source_code_combined _ cfg name lm h, hlen]
    simp only [combined_fragment, size_line, ARRAY_SIZE_DEFINITION, symbol_of,
      List.append_assoc]
  · exact getLast?_append_of_getLast? _ _ _ (getLast?_append_newline _)
  · rw [print_source_code_definition _ cfg name lm h, hlen]
  · intro h1 h2
    exact definition_fragment_no_define cfg name _ _ h1 h2 (body_of_no_sharp _ _)
  · rw [print_source_code_combined _ cfg name lm h, hlen]
    simp only [combined_fragment, ARRAY_DECLARATION, List.append_assoc]
    rfl

/-- C8, amended, at the 17 bytes 0x00..0x10 of `data.bin`: the header
carries `#define DATA_BIN_LEN 17`, the definition carries no `#define` and
its body has 17 literals. -/
theorem C8_size_constant_witness :
    sample_config.input_filename = some "data.bin".toList ∧
    fits_fprintf sample_config (List.range 17).length ∧
    (∃ before after,
      print_source_code (opened (List.range 17)) TYPE_DECLARATION sample_config sample_time =
        some (before ++ "#define DATA_BIN_LEN 17\n".toList ++ after,
          opened (List.range 17)) ∧
      before.getLast? = some '\n') ∧
    ¬ ("#define".toList <:+: definition_fragment sample_config "data.bin".toList
      (List.range 17).length (body_of sample_config (opened (List.range 17)))) ∧
    count_literals (body_of sample_config (opened (List.range 17))) = 17 :=
  have hthm := C8_size_constant (List.range 17) sample_config "data.bin".toList sample_time rfl
  ⟨rfl, by decide, hthm.1, hthm.2.2.1.2 (by decide) (by decide), hthm.2.2.2.2.2 (by decide)⟩
theorem occurs_after_ifndef_define (rest : List Char) :
    occurs_after '#' "ifndef".toList ("#define ".toList ++ rest) =
      occurs_after '#' "ifndef".toList rest := by
  rfl

theorem occurs_after_ifndef_import (rest : List Char) :
    occurs_after '#' "ifndef".toList (PROGMEM_IMPORT ++ rest) =
      occurs_after '#' "ifndef".toList rest := by
  rfl

theorem combined_fragment_no_ifndef (cfg : config) (name lm body : List Char) (size : Nat)
    (h1 : '#' ∉ get_basename name) (h2 : '#' ∉ lm) (h3 : '#' ∉ body) :
    ¬ ("#ifndef".toList <:+: combined_fragment cfg name size lm body) := by
  intro h
  have hocc := occurs_after_of_isInfix '#' "ifndef".toList _ h
  have h4 := fmt_lu_no_sharp size
  have h5 := symbol_of_no_sharp name h1
  have h6 := lowercase_no_sharp _ h5
  have hfalse : occurs_after '#' "ifndef".toList (combined_fragment cfg name size lm body)
      = false := by
    cases hp : cfg.progmem <;>
    simp only [combined_fragment, HEADER_COMMENT, ARRAY_LAST_MODIFIED_DEFINITION,
      ARRAY_SIZE_DEFINITION, ARRAY_DECLARATION,
      import_of, modifier_of, hp, List.append_assoc, if_true, if_false, Bool.false_eq_true,
      List.nil_append] <;>
    repeat (first
      | rw [occurs_after_ifndef_define]
      | rw [occurs_after_ifndef_import]
      | rw [occurs_after_append_of_not_mem _ _ _ _ (by assumption)]
      | rw [occurs_after_append_of_not_mem _ _ _ _ (by decide)]
      | rfl)
  rw [hfalse] at hocc
  exact absurd hocc (by decide)

theorem occurs_after_ifndef_include (rest : List Char) :
    occurs_after '#' "ifndef".toList ("#include \"".toList ++ rest) =
      occurs_after '#' "ifndef".toList rest := by
  rfl

theorem definition_fragment_no_ifndef (cfg : config) (name body : List Char) (size : Nat)
    (h1 : '#' ∉ get_basename name) (h2 : '#' ∉ get_basename cfg.output_filename)
    (h3 : '#' ∉ body) :
    ¬ ("#ifndef".toList <:+: definition_fragment cfg name size body) := by
  intro h
  have hocc := occurs_after_of_isInfix '#' "ifndef".toList _ h
  have h4 := fmt_lu_no_sharp size
  have h5 := lowercase_no_sharp _ (symbol_of_no_sharp name h1)
  have hfalse : occurs_after '#' "ifndef".toList (definition_fragment cfg name size body)
      = false := by
    cases hp : cfg.progmem <;>
    simp only [definition_fragment, HEADER_COMMENT, INLCUDE_HEADER_FILE, ARRAY_DECLARATION,
      import_of, modifier_of, hp, List.append_assoc, if_true, if_false, Bool.false_eq_true,
      List.nil_append] <;>
    repeat (first
      | rw [occurs_after_ifndef_include]
      | rw [occurs_after_ifndef_import]
      | rw [occurs_after_append_of_not_mem _ _ _ _ (by assumption)]
      | rw [occurs_after_append_of_not_mem _ _ _ _ (by decide)]
      | rfl)
  rw [hfalse] at hocc
  exact absurd hocc (by decide)

set_option maxRecDepth 1000000 in
/-- C9 as stated fails: the combined fragment of single-file mode, here for
the one-byte file `data.bin` and the output `array.c`, holds no `#ifndef`. -/
theorem C9_counterexample_combined_without_guard :
    ∃ text input1,
      print_source_code (opened [0]) (TYPE_DECLARATION ||| TYPE_DEFINITION)
        { sample_config with output_filename := "array.c".toList } sample_time =
        some (text, input1) ∧
      ¬ ("#ifndef".toList <:+: text) := by
  refine ⟨_, _, rfl, ?_⟩
  decide

/-- C9, amended: a Declaration-only fragment holds, right after the header
comment, the include-guard opening `#ifndef G` / `#define G`, and ends with
the closing `#endif /* G */`, G being the symbol derived from the output
file name; the combined Declaration+Definition fragment of single-file mode
is written without include guard: after the header comment comes the
last-modified constant, the fragment ends with the initialiser, and, the
input file name and the time text holding no `#`, no `#ifndef` occurs in
the fragment. -/
theorem C9_include_guard (input : FILE) (cfg : config) (name lm : List Char)
    (h : cfg.input_filename = some name) :
    (∃ between,
      print_source_code input TYPE_DECLARATION cfg lm =
        some (HEADER_COMMENT (get_basename name) input.data.length ++
          ("#ifndef ".toList ++ get_varname_from cfg.output_filename MAX_NAME_LENGTH ++
            "\n#define ".toList ++ get_varname_from cfg.output_filename MAX_NAME_LENGTH ++
            "\n\n".toList) ++
          between ++
          ("#endif /* ".toList ++ get_varname_from cfg.output_filename MAX_NAME_LENGTH ++
            " */\n".toList), input)) ∧
    (∃ text,
      print_source_code input (TYPE_DECLARATION ||| TYPE_DEFINITION) cfg lm =
        some (text, at_end input) ∧
      (∃ middle, text = HEADER_COMMENT (get_basename name) input.data.length ++
        ("#define ".toList ++ get_varname_from name MAX_NAME_LENGTH ++
          "_LAST_MODIFIED \"".toList ++ lm ++ "\"\n".toList) ++ middle ++
        " = \x7b\n".toList ++ body_of cfg input ++ "\x7d;\n".toList) ∧
      ('#' ∉ get_basename name → '#' ∉ lm → ¬ ("#ifndef".toList <:+: text))) := by
  refine ⟨⟨(ARRAY_LAST_MODIFIED_DEFINITION (symbol_of name) lm ++ "\n".toList) ++
      (ARRAY_SIZE_DEFINITION (symbol_of name) input.data.length ++ "\n".toList) ++
      ARRAY_DECLARATION "extern ".toList (transform_to_lowercase (symbol_of name))
        input.data.length [] ++ ";\n".toList ++ "\n".toList, ?_⟩,
    ⟨_, print_source_code_combined input cfg name lm h,
      ⟨"\n".toList ++ (ARRAY_SIZE_DEFINITION (symbol_of name) input.data.length ++ "\n".toList) ++
        import_of cfg ++
        ARRAY_DECLARATION "static ".toList (transform_to_lowercase (symbol_of name))
          input.data.length (modifier_of cfg), ?_⟩, ?_⟩⟩
  · rw [print_source_code_declaration input cfg name lm h]
    simp only [declaration_fragment, INCLUDE_GUARD, INCLUDE_GUARD_END, guard_of,
      List.append_assoc]
  · simp only [combined_fragment, ARRAY_LAST_MODIFIED_DEFINITION, symbol_of, List.append_assoc]
    rfl
  · intro h1 h2
    exact combined_fragment_no_ifndef cfg name lm _ _ h1 h2 (body_of_no_sharp _ _)

/-- C9, amended, for the 17 bytes 0x00..0x10 of `data.bin`: the guard of the
header `./array.h` is `ARRAY_H`, and single-file mode writes no `#ifndef`. -/
theorem C9_include_guard_witness :
    sample_config.input_filename = some "data.bin".toList ∧
    (∃ between,
      print_source_code (opened (List.range 17)) TYPE_DECLARATION sample_config sample_time =
        some (HEADER_COMMENT "data.bin".toList 17 ++
          "#ifndef ARRAY_H\n#define ARRAY_H\n\n".toList ++ between ++
          "#endif /* ARRAY_H */\n".toList, opened (List.range 17))) ∧
    (∃ text,
      print_source_code (opened (List.range 17)) (TYPE_DECLARATION ||| TYPE_DEFINITION)
        sample_config sample_time = some (text, at_end (opened (List.range 17))) ∧
      ¬ ("#ifndef".toList <:+: text)) := by
  have hthm := C9_include_guard (opened (List.range 17)) sample_config "data.bin".toList
    sample_time rfl
  obtain ⟨text, h1, _, h3⟩ := hthm.2
  exact ⟨rfl, hthm.1, text, h1, h3 (by decide) (by decide)⟩
theorem appears_before_drop (x y text : List Char) (m : Nat)
    (h : appears_before x y text) (hx : ¬ (x <:+: text.take m)) :
    y <:+: text.drop (m + 1) := by
  obtain ⟨a, b, c, rfl⟩ := h
  have hm : m < (a ++ x).length := by
    by_contra hle
    apply hx
    rw [List.append_assoc (a ++ x), List.append_assoc (a ++ x), List.take_append_eq_append_take,
      List.take_of_length_le (by omega)]
    exact ⟨a, _, rfl⟩
  rw [List.append_assoc (a ++ x ++ b), List.drop_append_of_le_length
    (by simp only [List.length_append] at hm ⊢; omega)]
  exact ⟨_, c, (List.append_assoc _ _ _)⟩

set_option maxRecDepth 1000000 in
/-- C10 as stated fails: in the Definition-only fragment written for the
one-byte file `data.bin` with the memory-placement modifier requested, the
include of the header comes first and the conditional include block after
it; the block does not occur before the include statement. -/
theorem C10_counterexample_import_after_include :
    ∃ text input1,
      print_source_code (opened [0]) TYPE_DEFINITION
        { sample_config with progmem := true } sample_time = some (text, input1) ∧
      appears_before "#include \"array.h\"".toList PROGMEM_IMPORT text ∧
      ¬ appears_before PROGMEM_IMPORT "#include \"array.h\"".toList text := by
  refine ⟨_, _, rfl, ?_, ?_⟩
  · refine ⟨HEADER_COMMENT "data.bin".toList 1, "\n\n".toList,
      "const unsigned char data_bin[1] PROGMEM = \x7b\n    0x00\x7d;\n".toList, ?_⟩
    decide
  · intro h
    have h1 := appears_before_drop _ _ _
      ((HEADER_COMMENT "data.bin".toList 1).length + 30) h (by decide)
    revert h1
    decide

theorem occurs_after_import_include (rest : List Char) :
    occurs_after '#' PROGMEM_IMPORT.tail ("#include \"".toList ++ rest) =
      occurs_after '#' PROGMEM_IMPORT.tail rest := by
  rfl

theorem definition_fragment_no_import (cfg : config) (name body : List Char) (size : Nat)
    (hp : cfg.progmem = false)
    (h1 : '#' ∉ get_basename name) (h2 : '#' ∉ get_basename cfg.output_filename)
    (h3 : '#' ∉ body) :
    ¬ (PROGMEM_IMPORT <:+: definition_fragment cfg name size body) := by
  intro h
  have hocc := occurs_after_of_isInfix '#' PROGMEM_IMPORT.tail _ h
  have h4 := fmt_lu_no_sharp size
  have h5 := lowercase_no_sharp _ (symbol_of_no_sharp name h1)
  have hfalse : occurs_after '#' PROGMEM_IMPORT.tail (definition_fragment cfg name size body)
      = false := by
    simp only [definition_fragment, HEADER_COMMENT, INLCUDE_HEADER_FILE, ARRAY_DECLARATION,
      import_of, modifier_of, hp, List.append_assoc, if_false, Bool.false_eq_true,
      List.nil_append]
    repeat (first
      | rw [occurs_after_import_include]
      | rw [occurs_after_append_of_not_mem _ _ _ _ (by assumption)]
      | rw [occurs_after_append_of_not_mem _ _ _ _ (by decide)]
      | rfl)
  rw [hfalse] at hocc
  exact absurd hocc (by decide)

/-- C10, amended: a Definition-only fragment is the header comment, then
the include statement `#include "B"`, B the basename of the configured
output file name, and an empty line, then, exactly when the
memory-placement modifier is requested, the conditional include block (so
the block comes after the include statement), then the array declaration
and the initialiser; when the modifier is not requested and the file names
hold no `#`, the block occurs nowhere in the fragment. -/
theorem C10_include_then_import (input : FILE) (cfg : config) (name lm : List Char)
    (h : cfg.input_filename = some name) :
    (∃ text,
      print_source_code input TYPE_DEFINITION cfg lm = some (text, at_end input) ∧
      text =
        HEADER_COMMENT (get_basename name) input.data.length ++
        ("#include \"".toList ++ get_basename cfg.output_filename ++ "\"\n".toList) ++
        "\n".toList ++
        (if cfg.progmem then PROGMEM_IMPORT else []) ++
        array_declaration [] name input.data.length
          (if cfg.progmem then " PROGMEM".toList else []) ++
        " = \x7b\n".toList ++ body_of cfg input ++ "\x7d;\n".toList ∧
      (cfg.progmem = false → '#' ∉ get_basename name →
        '#' ∉ get_basename cfg.output_filename → ¬ (PROGMEM_IMPORT <:+: text))) ∧
    PROGMEM_IMPORT = "#if defined ESP8266\n#include <pgmspace.h>\n#endif\n\n".toList := by
  refine ⟨⟨_, print_source_code_definition input cfg name lm h, ?_, ?_⟩, rfl⟩
  · simp only [definition_fragment, INLCUDE_HEADER_FILE, ARRAY_DECLARATION, array_declaration,
      symbol_of, import_of, modifier_of, List.append_assoc, List.nil_append]
    rfl
  · intro hp h1 h2
    exact definition_fragment_no_import cfg name _ _ hp h1 h2 (body_of_no_sharp _ _)

/-- C10, amended, for the 17 bytes 0x00..0x10 of `data.bin` and the default
output `./array.h`, the modifier not requested. -/
theorem C10_include_then_import_witness :
    sample_config.input_filename = some "data.bin".toList ∧
    ∃ text,
      print_source_code (opened (List.range 17)) TYPE_DEFINITION sample_config sample_time =
        some (text, at_end (opened (List.range 17))) ∧
      ¬ (PROGMEM_IMPORT <:+: text) := by
  obtain ⟨text, h1, _, h3⟩ := (C10_include_then_import (opened (List.range 17)) sample_config
    "data.bin".toList sample_time rfl).1
  exact ⟨rfl, text, h1, h3 rfl (by decide) (by decide)⟩
/-! ## The file orchestrator -/

theorem store_file_of (fs : FileSystem) (path : List Char) (bytes : List Nat) :
    (fs.store path bytes).file_of = fs.file_of := rfl

theorem same_file_eq_false (fs : FileSystem) (p q : List Char)
    (h : fs.file_of p ≠ fs.file_of q) : same_file fs p q = false := by
  unfold same_file
  rw [beq_eq_false_iff_ne]
  exact h

theorem process_file_header (fs : FileSystem) (cfg : config) (name lm companion : List Char)
    (data : List Nat)
    (hname : cfg.input_filename = some name)
    (hin : fs.content (fs.file_of name) = some data)
    (hout : fs.writable cfg.output_filename = true)
    (hh : is_header_file cfg.output_filename = true)
    (hconv : convert_header_name_to_source_name cfg.output_filename = some companion)
    (hcomp : fs.writable companion = true)
    (hio : fs.file_of name ≠ fs.file_of cfg.output_filename)
    (hic : fs.file_of name ≠ fs.file_of companion)
    (hoc : fs.file_of cfg.output_filename ≠ fs.file_of companion) :
    process_file fs cfg lm =
      some (Outcome.returned,
        (((fs.store cfg.output_filename []).store companion []).store companion
          (text_bytes (definition_fragment cfg name data.length
            (body_of cfg (opened data))))).store
          cfg.output_filename
          (text_bytes (declaration_fragment cfg name data.length lm))) := by
  unfold process_file
  simp only [hname, fopen_rb, hin, fopen_wb, hout, if_true, hh,
    same_file_eq_false fs _ _ hio, Bool.false_eq_true, if_false]
  rw [print_source_code_declaration _ cfg name lm hname]
  simp only [hconv]
  have hw : (fs.store cfg.output_filename []).writable companion = true := hcomp
  simp only [hw, if_true, same_file_eq_false fs _ _ hic, same_file_eq_false fs _ _ hoc,
    Bool.or_self, Bool.false_eq_true, if_false]
  rw [print_source_code_definition _ cfg name lm hname]
  rfl

theorem process_file_header_outputs (fs : FileSystem) (cfg : config)
    (name lm companion : List Char) (data : List Nat)
    (hname : cfg.input_filename = some name)
    (hin : fs.content (fs.file_of name) = some data)
    (hout : fs.writable cfg.output_filename = true)
    (hh : is_header_file cfg.output_filename = true)
    (hconv : convert_header_name_to_source_name cfg.output_filename = some companion)
    (hcomp : fs.writable companion = true)
    (hio : fs.file_of name ≠ fs.file_of cfg.output_filename)
    (hic : fs.file_of name ≠ fs.file_of companion)
    (hoc : fs.file_of cfg.output_filename ≠ fs.file_of companion) :
    ∃ fs1, process_file fs cfg lm = some (Outcome.returned, fs1) ∧
      fs1.content (fs.file_of cfg.output_filename) =
        some ((declaration_fragment cfg name data.length lm).map Char.toNat) ∧
      fs1.content (fs.file_of companion) =
        some ((definition_fragment cfg name data.length
          (body_of cfg (opened data))).map Char.toNat) ∧
      (∀ file, file ≠ fs.file_of cfg.output_filename → file ≠ fs.file_of companion →
        fs1.content file = fs.content file) ∧
      fs1.writable = fs.writable ∧ fs1.file_of = fs.file_of := by
  refine ⟨_, process_file_header fs cfg name lm companion data hname hin hout hh hconv hcomp
    hio hic hoc, ?_, ?_, ?_, rfl, rfl⟩
  · simp [FileSystem.store, text_bytes]
  · simp [FileSystem.store, text_bytes, Ne.symm hoc]
  · intro file h1 h2
    simp [FileSystem.store, h1, h2]

theorem process_file_single (fs : FileSystem) (cfg : config) (name lm : List Char)
    (data : List Nat)
    (hname : cfg.input_filename = some name)
    (hin : fs.content (fs.file_of name) = some data)
    (hout : fs.writable cfg.output_filename = true)
    (hh : is_header_file cfg.output_filename = false)
    (hio : fs.file_of name ≠ fs.file_of cfg.output_filename) :
    ∃ fs1, process_file fs cfg lm = some (Outcome.returned, fs1) ∧
      fs1.content (fs.file_of cfg.output_filename) =
        some ((combined_fragment cfg name data.length lm
          (body_of cfg (opened data))).map Char.toNat) ∧
      (∀ file, file ≠ fs.file_of cfg.output_filename → fs1.content file = fs.content file) ∧
      fs1.writable = fs.writable ∧ fs1.file_of = fs.file_of := by
  refine ⟨(fs.store cfg.output_filename []).store cfg.output_filename
    (text_bytes (combined_fragment cfg name data.length lm (body_of cfg (opened data)))),
    ?_, ?_, ?_, rfl, rfl⟩
  · unfold process_file
    simp only [hname, fopen_rb, hin, fopen_wb, hout, if_true, hh,
      same_file_eq_false fs _ _ hio, Bool.false_eq_true, if_false]
    rw [print_source_code_combined _ cfg name lm hname]
    rfl
  · simp [FileSystem.store, text_bytes]
  · intro file h1
    simp [FileSystem.store, h1]

/-- C5 as stated fails: for the input `data.c`, of 1000 bytes, and the
output `data.h`, every file opens, and the companion the run opens for
writing is `data.c`, the file it is reading.  The source then determines no
result: the input stream reads what the run itself writes to that file, and
the run need not end. -/
theorem C5_counterexample_input_is_companion :
    source_config.input_filename = some "data.c".toList ∧
    fopen_rb source_fs "data.c".toList = some (opened (List.replicate 1000 65)) ∧
    source_fs.writable source_config.output_filename = true ∧
    is_header_file source_config.output_filename = true ∧
    convert_header_name_to_source_name source_config.output_filename =
      some "data.c".toList ∧
    source_fs.writable "data.c".toList = true ∧
    process_file source_fs source_config sample_time = none := by
  refine ⟨rfl, rfl, rfl, by decide, by decide, rfl, ?_⟩
  unfold process_file
  have hname : source_config.input_filename = some "data.c".toList := rfl
  have hopen : fopen_rb source_fs "data.c".toList =
      some (opened (List.replicate 1000 65)) := rfl
  have hconv : convert_header_name_to_source_name source_config.output_filename =
      some "data.c".toList := by decide
  have hh : is_header_file source_config.output_filename = true := by decide
  have halias : same_file source_fs "data.c".toList "data.c".toList = true := by decide
  have hio : same_file source_fs "data.c".toList source_config.output_filename = false := by
    decide
  simp only [hname, hopen, fopen_wb, hio, hh, if_true, Bool.false_eq_true, if_false]
  rw [print_source_code_declaration _ source_config "data.c".toList sample_time hname]
  simp only [hconv]
  have hw1 : source_fs.writable source_config.output_filename = true := rfl
  have hw2 : (source_fs.store source_config.output_filename []).writable "data.c".toList =
      true := rfl
  simp only [hw1, hw2, if_true, halias, Bool.true_or]

/-- C5, amended: in a run of `process_file` in which the input file and
every output file open, and the files involved are different files (the
input file is no output file, and header and companion are two files): when
the output path is `stem.h` (or `stem.hpp`) the run returns and has written
two files and no other, `stem.h` (`stem.hpp`) holding the Declaration-only
fragment and `stem.c` (`stem.cpp`) the Definition-only fragment; when the
output path is not header-style the run returns and has written that one
file and no other, holding the combined fragment.  The size is the number of
bytes of the input file and the body is that of all its bytes; a file holds
the codes of the characters of its fragment.  The Declaration-only fragment
ends with the `extern` prototype, `;` and the guard closing, so has no
initialiser; the combined fragment ends with the `static` array and its
initialiser; the Definition-only fragment, the file names holding no `#`,
holds no `#ifndef` and no `#define`. -/
theorem C5_process_file_outputs (fs : FileSystem) (cfg : config) (name lm : List Char)
    (data : List Nat)
    (hname : cfg.input_filename = some name)
    (hin : fs.content (fs.file_of name) = some data)
    (hout : fs.writable cfg.output_filename = true)
    (hio : fs.file_of name ≠ fs.file_of cfg.output_filename) :
    (∀ stem, cfg.output_filename = stem ++ ".h".toList →
      fs.writable (stem ++ ".c".toList) = true →
      fs.file_of name ≠ fs.file_of (stem ++ ".c".toList) →
      fs.file_of (stem ++ ".h".toList) ≠ fs.file_of (stem ++ ".c".toList) →
      is_header_file cfg.output_filename = true ∧
      ∃ fs1, process_file fs cfg lm = some (Outcome.returned, fs1) ∧
        fs1.content (fs.file_of (stem ++ ".h".toList)) =
          some ((declaration_fragment cfg name data.length lm).map Char.toNat) ∧
        fs1.content (fs.file_of (stem ++ ".c".toList)) =
          some ((definition_fragment cfg name data.length
            (body_of cfg (opened data))).map Char.toNat) ∧
        (∀ file, file ≠ fs.file_of (stem ++ ".h".toList) →
          file ≠ fs.file_of (stem ++ ".c".toList) → fs1.content file = fs.content file) ∧
        fs1.writable = fs.writable ∧ fs1.file_of = fs.file_of) ∧
    (∀ stem, cfg.output_filename = stem ++ ".hpp".toList →
      fs.writable (stem ++ ".cpp".toList) = true →
      fs.file_of name ≠ fs.file_of (stem ++ ".cpp".toList) →
      fs.file_of (stem ++ ".hpp".toList) ≠ fs.file_of (stem ++ ".cpp".toList) →
      is_header_file cfg.output_filename = true ∧
      ∃ fs1, process_file fs cfg lm = some (Outcome.returned, fs1) ∧
        fs1.content (fs.file_of (stem ++ ".hpp".toList)) =
          some ((declaration_fragment cfg name data.length lm).map Char.toNat) ∧
        fs1.content (fs.file_of (stem ++ ".cpp".toList)) =
          some ((definition_fragment cfg name data.length
            (body_of cfg (opened data))).map Char.toNat) ∧
        (∀ file, file ≠ fs.file_of (stem ++ ".hpp".toList) →
          file ≠ fs.file_of (stem ++ ".cpp".toList) → fs1.content file = fs.content file) ∧
        fs1.writable = fs.writable ∧ fs1.file_of = fs.file_of) ∧
    (is_header_file cfg.output_filename = false →
      ∃ fs1, process_file fs cfg lm = some (Outcome.returned, fs1) ∧
        fs1.content (fs.file_of cfg.output_filename) =
          some ((combined_fragment cfg name data.length lm
            (body_of cfg (opened data))).map Char.toNat) ∧
        (∀ file, file ≠ fs.file_of cfg.output_filename →
          fs1.content file = fs.content file) ∧
        fs1.writable = fs.writable ∧ fs1.file_of = fs.file_of) ∧
    (∀ (n : Nat) (input : FILE),
      (∃ before, declaration_fragment cfg name n lm =
        before ++ array_declaration "extern ".toList name n [] ++ ";\n\n".toList ++
          ("#endif /* ".toList ++ get_varname_from cfg.output_filename MAX_NAME_LENGTH ++
            " */\n".toList)) ∧
      (∃ before, combined_fragment cfg name n lm (body_of cfg input) =
        before ++
          array_declaration "static ".toList name n
            (if cfg.progmem then " PROGMEM".toList else []) ++
          " = \x7b\n".toList ++ body_of cfg input ++ "\x7d;\n".toList) ∧
      ('#' ∉ get_basename name → '#' ∉ get_basename cfg.output_filename →
        ¬ ("#ifndef".toList <:+: definition_fragment cfg name n (body_of cfg input)) ∧
        ¬ ("#define".toList <:+: definition_fragment cfg name n (body_of cfg input)))) := by
  refine ⟨?_, ?_, fun hh => process_file_single fs cfg name lm data hname hin hout hh hio, ?_⟩
  rotate_left 2
  · intro n input
    refine ⟨⟨HEADER_COMMENT (get_basename name) n ++
        INCLUDE_GUARD (guard_of cfg) (guard_of cfg) ++
        (ARRAY_LAST_MODIFIED_DEFINITION (symbol_of name) lm ++ "\n".toList) ++
        (ARRAY_SIZE_DEFINITION (symbol_of name) n ++ "\n".toList), ?_⟩,
      ⟨HEADER_COMMENT (get_basename name) n ++
        (ARRAY_LAST_MODIFIED_DEFINITION (symbol_of name) lm ++ "\n".toList) ++
        (ARRAY_SIZE_DEFINITION (symbol_of name) n ++ "\n".toList) ++ import_of cfg, ?_⟩,
      fun h1 h2 =>
        ⟨definition_fragment_no_ifndef cfg name _ n h1 h2 (body_of_no_sharp _ _),
          definition_fragment_no_define cfg name _ n h1 h2 (body_of_no_sharp _ _)⟩⟩
    · simp only [declaration_fragment, ARRAY_DECLARATION, array_declaration, symbol_of,
        INCLUDE_GUARD_END, guard_of, List.append_assoc]
      rfl
    · simp only [combined_fragment, ARRAY_DECLARATION, array_declaration, symbol_of,
        modifier_of, List.append_assoc]
      rfl
  · intro stem hstem hw hic hoc
    have hh : is_header_file cfg.output_filename = true :=
      (is_header_file_iff _).mpr (Or.inl ⟨stem, hstem.symm⟩)
    have hconv : convert_header_name_to_source_name cfg.output_filename =
        some (stem ++ ".c".toList) := by rw [hstem]; exact convert_dot_h stem
    have := process_file_header_outputs fs cfg name lm _ data hname hin hout hh hconv hw hio
      hic (by rw [hstem]; exact hoc)
    rw [hstem] at this
    rw [hstem]
    exact ⟨hstem ▸ hh, this⟩
  · intro stem hstem hw hic hoc
    have hh : is_header_file cfg.output_filename = true :=
      (is_header_file_iff _).mpr (Or.inr ⟨stem, hstem.symm⟩)
    have hconv : convert_header_name_to_source_name cfg.output_filename =
        some (stem ++ ".cpp".toList) := by rw [hstem]; exact convert_dot_hpp stem
    have := process_file_header_outputs fs cfg name lm _ data hname hin hout hh hconv hw hio
      hic (by rw [hstem]; exact hoc)
    rw [hstem] at this
    rw [hstem]
    exact ⟨hstem ▸ hh, this⟩

/-- C5, amended, for the file `data.bin` of 17 bytes and the default output
`./array.h`: the run writes the Declaration-only fragment to `array.h` and
the Definition-only fragment to `array.c`; the first byte of the header is
the code 47 of `/`. -/
theorem C5_process_file_outputs_witness :
    sample_config.input_filename = some "data.bin".toList ∧
    sample_fs.content (sample_fs.file_of "data.bin".toList) = some (List.range 17) ∧
    sample_fs.writable sample_config.output_filename = true ∧
    sample_fs.file_of "data.bin".toList ≠ sample_fs.file_of sample_config.output_filename ∧
    sample_config.output_filename = "./array".toList ++ ".h".toList ∧
    sample_fs.writable ("./array".toList ++ ".c".toList) = true ∧
    (∃ fs1, process_file sample_fs sample_config sample_time = some (Outcome.returned, fs1) ∧
      fs1.content "array.h".toList =
        some ((declaration_fragment sample_config "data.bin".toList 17
          sample_time).map Char.toNat) ∧
      fs1.content "array.c".toList =
        some ((definition_fragment sample_config "data.bin".toList 17
          (body_of sample_config (opened (List.range 17)))).map Char.toNat)) ∧
    ((declaration_fragment sample_config "data.bin".toList 17 sample_time).map
      Char.toNat).head? = some 47 := by
  obtain ⟨_, fs1, h1, h2, h3, _⟩ :=
    (C5_process_file_outputs sample_fs sample_config "data.bin".toList sample_time
      (List.range 17) rfl rfl rfl (by decide)).1 "./array".toList rfl rfl (by decide)
      (by decide)
  exact ⟨rfl, rfl, rfl, by decide, rfl, rfl, ⟨fs1, h1, h2, h3⟩, by decide⟩
/-! ## The empty input -/

theorem body_of_opened_nil (cfg : config) : body_of cfg (opened []) = [] := rfl

set_option maxRecDepth 1000000 in
/-- C11 as stated fails: for the empty file `data.bin`, in the Definition-only
and in the combined fragment the opening brace is followed by a newline, so
the text `= {}` occurs in neither; the initialiser is `= {`, newline, `}`. -/
theorem C11_counterexample_newline_after_brace :
    (∃ text input1,
      print_source_code (opened []) TYPE_DEFINITION sample_config sample_time =
        some (text, input1) ∧
      ¬ ("= \x7b\x7d".toList <:+: text) ∧ "[0] = \x7b\n\x7d;\n".toList <:+ text) ∧
    (∃ text input1,
      print_source_code (opened []) (TYPE_DECLARATION ||| TYPE_DEFINITION)
        { sample_config with output_filename := "array.c".toList } sample_time =
        some (text, input1) ∧
      ¬ ("= \x7b\x7d".toList <:+: text) ∧ "[0] = \x7b\n\x7d;\n".toList <:+ text) := by
  refine ⟨⟨_, _, rfl, ?_, ?_⟩, ⟨_, _, rfl, ?_, ?_⟩⟩ <;> decide

/-- C11, amended: for the empty input and every configuration with an input
file name, `print_source_code` returns for each of the three kinds; the
size constant is `#define <SYM>_LEN 0`, the array is declared with `[0]`,
and with Definition the initialiser is ` = {`, a newline, the empty body
and `}`, followed by `;`. -/
theorem C11_empty_input (cfg : config) (name lm : List Char)
    (h : cfg.input_filename = some name) :
    print_content (opened []) cfg = some ([], opened []) ∧
    fmt_lu 0 = "0".toList ∧
    (∃ before after,
      print_source_code (opened []) TYPE_DECLARATION cfg lm =
        some (before ++ size_line name 0 ++ "\n".toList ++
          array_declaration "extern ".toList name 0 [] ++ ";\n".toList ++ after,
          opened [])) ∧
    (∃ before,
      print_source_code (opened []) TYPE_DEFINITION cfg lm =
        some (before ++
          array_declaration [] name 0 (if cfg.progmem then " PROGMEM".toList else []) ++
          " = \x7b\n".toList ++ [] ++ "\x7d".toList ++ ";\n".toList, opened [])) ∧
    (∃ before between,
      print_source_code (opened []) (TYPE_DECLARATION ||| TYPE_DEFINITION) cfg lm =
        some (before ++ size_line name 0 ++ between ++
          array_declaration "static ".toList name 0
            (if cfg.progmem then " PROGMEM".toList else []) ++
          " = \x7b\n".toList ++ [] ++ "\x7d".toList ++ ";\n".toList, opened [])) := by
  refine ⟨by rw [print_content_eq]; rfl, rfl,
    ⟨HEADER_COMMENT (get_basename name) 0 ++ INCLUDE_GUARD (guard_of cfg) (guard_of cfg) ++
        (ARRAY_LAST_MODIFIED_DEFINITION (symbol_of name) lm ++ "\n".toList),
      "\n".toList ++ INCLUDE_GUARD_END (guard_of cfg), ?_⟩,
    ⟨HEADER_COMMENT (get_basename name) 0 ++
        (INLCUDE_HEADER_FILE (get_basename cfg.output_filename) ++ "\n".toList) ++
        import_of cfg, ?_⟩,
    ⟨HEADER_COMMENT (get_basename name) 0 ++
        (ARRAY_LAST_MODIFIED_DEFINITION (symbol_of name) lm ++ "\n".toList),
      "\n".toList ++ import_of cfg, ?_⟩⟩
  · rw [print_source_code_declaration _ cfg name lm h]
    simp only [declaration_fragment, size_line, ARRAY_SIZE_DEFINITION, ARRAY_DECLARATION,
      array_declaration, symbol_of, List.append_assoc]
    rfl
  · rw [print_source_code_definition _ cfg name lm h]
    simp only [definition_fragment, ARRAY_DECLARATION, array_declaration, symbol_of,
      modifier_of, body_of_opened_nil, List.append_assoc]
    rfl
  · rw [print_source_code_combined _ cfg name lm h]
    simp only [combined_fragment, size_line, ARRAY_SIZE_DEFINITION, ARRAY_DECLARATION,
      array_declaration, symbol_of, modifier_of, body_of_opened_nil, List.append_assoc]
    rfl

/-- C11, amended, for an empty `data.bin` and the default configuration. -/
theorem C11_empty_input_witness :
    sample_config.input_filename = some "data.bin".toList ∧
    ∃ before,
      print_source_code (opened []) TYPE_DEFINITION sample_config sample_time =
        some (before ++ "const unsigned char data_bin[0]".toList ++
          " = \x7b\n".toList ++ [] ++ "\x7d".toList ++ ";\n".toList, opened []) :=
  ⟨rfl, (C11_empty_input sample_config "data.bin".toList sample_time rfl).2.2.2.1⟩
/-! ## The name deriver -/

theorem toupper_eq_toUpper (c : Char) : toupper c = c.toUpper := by
  unfold toupper Char.toUpper
  simp only [char_le_iff]
  rfl

theorem tolower_eq_toLower (c : Char) : tolower c = c.toLower := by
  unfold tolower Char.toLower
  simp only [char_le_iff]
  rfl

set_option maxRecDepth 100000 in
theorem toNat_ofNat_upper : ∀ k, k < 123 → 97 ≤ k → (Char.ofNat (k - 32)).toNat = k - 32 := by
  decide

set_option maxRecDepth 100000 in
theorem toNat_ofNat_lower : ∀ k, k < 91 → 65 ≤ k → (Char.ofNat (k + 32)).toNat = k + 32 := by
  decide

theorem toNat_toupper (c : Char) :
    (toupper c).toNat = if 97 ≤ c.toNat ∧ c.toNat ≤ 122 then c.toNat - 32 else c.toNat := by
  unfold toupper
  simp only [char_le_iff]
  have ha : 'a'.toNat = 97 := rfl
  have hz : 'z'.toNat = 122 := rfl
  rw [ha, hz]
  split
  · rename_i h
    exact toNat_ofNat_upper _ (by omega) h.1
  · rfl

theorem toNat_tolower (c : Char) :
    (tolower c).toNat = if 65 ≤ c.toNat ∧ c.toNat ≤ 90 then c.toNat + 32 else c.toNat := by
  unfold tolower
  simp only [char_le_iff]
  have ha : 'A'.toNat = 65 := rfl
  have hz : 'Z'.toNat = 90 := rfl
  rw [ha, hz]
  split
  · rename_i h
    exact toNat_ofNat_lower _ (by omega) h.1
  · rfl

theorem char_eq_of_toNat_eq (a b : Char) (h : a.toNat = b.toNat) : a = b := by
  rw [← Char.ofNat_toNat a, ← Char.ofNat_toNat b, h]

theorem get_varname_loop_eq (name : List Char) (length : Nat) :
    get_varname_loop name length =
      (name.take length).map fun c => if c = '.' then '_' else toupper c := by
  induction name generalizing length with
  | nil => simp [get_varname_loop]
  | cons c name ih =>
    cases length with
    | zero => simp [get_varname_loop]
    | succ n => simp [get_varname_loop, ih]

theorem symbol_char_not_lower (c : Char) :
    ¬ ('a' ≤ (if c = '.' then '_' else toupper c) ∧ (if c = '.' then '_' else toupper c) ≤ 'z') ∧
      (if c = '.' then '_' else toupper c) ≠ '.' := by
  split
  · exact ⟨by decide, by decide⟩
  · rename_i hc
    have ht := toNat_toupper c
    constructor
    · rw [char_le_iff, char_le_iff]
      have ha : 'a'.toNat = 97 := rfl
      have hz : 'z'.toNat = 122 := rfl
      rw [ha, hz, ht]
      split <;> omega
    · intro hdot
      have hd : (toupper c).toNat = 46 := by rw [hdot]; rfl
      rw [ht] at hd
      split at hd
      · omega
      · exact hc (char_eq_of_toNat_eq c '.' hd)

/-- C12: for every path and every length limit, the symbol name produced
by `get_varname_from` holds no lowercase letter a-z and no `.`; and
`transform_to_lowercase` maps it, character by character and keeping the
length, to its lowercase: a letter A-Z becomes the letter a-z 32 codes up,
every other character is unchanged. -/
theorem C12_symbol_uppercase_and_lowercase_variant (path : List Char) (length : Nat) :
    (∀ c ∈ get_varname_from path length, ¬ ('a' ≤ c ∧ c ≤ 'z') ∧ c ≠ '.') ∧
    transform_to_lowercase (get_varname_from path length) =
      (get_varname_from path length).map Char.toLower ∧
    (transform_to_lowercase (get_varname_from path length)).length =
      (get_varname_from path length).length ∧
    (∀ c : Char, 'A' ≤ c ∧ c ≤ 'Z' →
      (tolower c).toNat = c.toNat + 32 ∧ 'a' ≤ tolower c ∧ tolower c ≤ 'z') ∧
    (∀ c : Char, ¬ ('A' ≤ c ∧ c ≤ 'Z') → tolower c = c) := by
  refine ⟨?_, ?_, ?_, ?_, ?_⟩
  · intro c hc
    unfold get_varname_from at hc
    rw [get_varname_loop_eq] at hc
    obtain ⟨d, _, rfl⟩ := List.mem_map.mp hc
    exact symbol_char_not_lower d
  · unfold transform_to_lowercase
    rw [funext tolower_eq_toLower]
  · simp [transform_to_lowercase]
  · intro c hc
    have ht := toNat_tolower c
    rw [char_le_iff, char_le_iff] at hc
    have ha : 'A'.toNat = 65 := rfl
    have hz : 'Z'.toNat = 90 := rfl
    rw [ha, hz] at hc
    rw [if_pos hc] at ht
    refine ⟨ht, ?_, ?_⟩
    · rw [char_le_iff, ht]
      have : 'a'.toNat = 97 := rfl
      omega
    · rw [char_le_iff, ht]
      have : 'z'.toNat = 122 := rfl
      omega
  · intro c hc
    unfold tolower
    rw [if_neg hc]
theorem get_basename_loop_spec (cursor base : List Char) :
    (get_basename_loop cursor base = base ∧ ∀ c ∈ cursor, ¬ is_path_separator c) ∨
    (∃ dir sep, is_path_separator sep ∧
      cursor = dir ++ sep :: get_basename_loop cursor base ∧
      ∀ c ∈ get_basename_loop cursor base, ¬ is_path_separator c) := by
  induction cursor generalizing base with
  | nil => left; exact ⟨rfl, by simp⟩
  | cons c cursor ih =>
    by_cases hc : c = '/' ∨ c = '\\'
    · right
      simp only [get_basename_loop, if_pos hc]
      rcases ih cursor with ⟨h1, h2⟩ | ⟨dir, sep, hsep, h1, h2⟩
      · exact ⟨[], c, hc, by rw [h1]; rfl, by rw [h1]; exact h2⟩
      · exact ⟨c :: dir, sep, hsep, by rw [List.cons_append, ← h1], h2⟩
    · simp only [get_basename_loop, if_neg hc]
      rcases ih base with ⟨h1, h2⟩ | ⟨dir, sep, hsep, h1, h2⟩
      · left
        refine ⟨h1, ?_⟩
        intro d hd
        rcases List.mem_cons.mp hd with rfl | hd
        · exact hc
        · exact h2 d hd
      · right
        exact ⟨c :: dir, sep, hsep, by rw [List.cons_append, ← h1], h2⟩

theorem symbol_char_eq (c : Char) : (if c = '.' then '_' else toupper c) = symbol_char c := by
  unfold symbol_char
  rw [toupper_eq_toUpper]

/-- C13: for every path, `get_varname_from` with the limit 2048 returns
the first 2048 characters of the basename (all of it when it is shorter),
each mapped by: `.` to `_`, a letter to its uppercase, anything else
unchanged; the basename holds no `/` and no `\`, and is the whole path or
what follows a `/` or `\` of the path.  There is no error case. -/
theorem C13_symbol_of_basename (path : List Char) :
    get_varname_from path MAX_NAME_LENGTH =
      ((get_basename path).take 2048).map symbol_char ∧
    (get_varname_from path MAX_NAME_LENGTH).length = min 2048 (get_basename path).length ∧
    (∀ i, i < min 2048 (get_basename path).length →
      (get_varname_from path MAX_NAME_LENGTH)[i]? =
        ((get_basename path)[i]?).map symbol_char) ∧
    (∀ c ∈ get_basename path, ¬ is_path_separator c) ∧
    (get_basename path = path ∨
      ∃ dir sep, is_path_separator sep ∧ path = dir ++ sep :: get_basename path) ∧
    (∀ c : Char, 'a' ≤ c ∧ c ≤ 'z' → (symbol_char c).toNat = c.toNat - 32) ∧
    (∀ c : Char, c ≠ '.' → ¬ ('a' ≤ c ∧ c ≤ 'z') → symbol_char c = c) := by
  have heq : get_varname_from path MAX_NAME_LENGTH =
      ((get_basename path).take 2048).map symbol_char := by
    unfold get_varname_from
    rw [get_varname_loop_eq, funext symbol_char_eq]
    rfl
  refine ⟨heq, ?_, ?_, ?_, ?_, ?_, ?_⟩
  · rw [heq, List.length_map, List.length_take]
  · intro i hi
    rw [heq, List.getElem?_map, List.getElem?_take_of_lt (by omega)]
  · rcases get_basename_loop_spec path path with ⟨h1, h2⟩ | ⟨_, _, _, _, h2⟩
    · unfold get_basename; rw [h1]; exact h2
    · exact h2
  · rcases get_basename_loop_spec path path with ⟨h1, _⟩ | ⟨dir, sep, hsep, h1, _⟩
    · left; exact h1
    · right; exact ⟨dir, sep, hsep, h1⟩
  · intro c hc
    have ht := toNat_toupper c
    rw [char_le_iff, char_le_iff] at hc
    have ha : 'a'.toNat = 97 := rfl
    have hz : 'z'.toNat = 122 := rfl
    rw [ha, hz] at hc
    have hdot : c ≠ '.' := by
      intro h
      rw [h] at hc
      have : '.'.toNat = 46 := rfl
      omega
    rw [← symbol_char_eq, if_neg hdot, ht, if_pos hc]
  · intro c hdot hc
    rw [← symbol_char_eq, if_neg hdot]
    unfold toupper
    rw [if_neg hc]
theorem toNat_symbol_char (c : Char) :
    (symbol_char c).toNat =
      if c = '.' then 95
      else if 97 ≤ c.toNat ∧ c.toNat ≤ 122 then c.toNat - 32 else c.toNat := by
  rw [← symbol_char_eq]
  split
  · rfl
  · exact toNat_toupper c

theorem toNat_dot (c : Char) : c = '.' ↔ c.toNat = 46 :=
  ⟨fun h => by rw [h]; rfl, fun h => char_eq_of_toNat_eq c '.' h⟩

theorem toNat_underscore (c : Char) : c = '_' ↔ c.toNat = 95 :=
  ⟨fun h => by rw [h]; rfl, fun h => char_eq_of_toNat_eq c '_' h⟩

theorem is_digit_iff (c : Char) : is_digit c ↔ 48 ≤ c.toNat ∧ c.toNat ≤ 57 := by
  unfold is_digit
  rw [char_le_iff, char_le_iff]
  exact Iff.rfl

theorem is_uppercase_iff (c : Char) : is_uppercase c ↔ 65 ≤ c.toNat ∧ c.toNat ≤ 90 := by
  unfold is_uppercase
  rw [char_le_iff, char_le_iff]
  exact Iff.rfl

theorem is_lowercase_iff (c : Char) : is_lowercase c ↔ 97 ≤ c.toNat ∧ c.toNat ≤ 122 := by
  unfold is_lowercase
  rw [char_le_iff, char_le_iff]
  exact Iff.rfl

theorem symbol_char_identifier (c : Char)
    (h : is_uppercase c ∨ is_lowercase c ∨ is_digit c ∨ c = '.' ∨ c = '_') :
    (is_uppercase (symbol_char c) ∨ is_digit (symbol_char c) ∨ symbol_char c = '_') ∧
    (¬ is_digit c → ¬ is_digit (symbol_char c)) := by
  have ht := toNat_symbol_char c
  simp only [is_uppercase_iff, is_lowercase_iff, is_digit_iff, toNat_dot, toNat_underscore] at *
  split at ht <;> (try split at ht) <;> omega

/-- C14 as stated fails: only `.` is mapped to `_`.  The symbol of
`my-file.bin` is `MY-FILE_BIN`, with a `-`; that of `1.bin` starts with a
digit; that of a path ending in `/` is empty. -/
theorem C14_counterexample_not_an_identifier :
    get_varname_from "my-file.bin".toList MAX_NAME_LENGTH = "MY-FILE_BIN".toList ∧
    ¬ is_c_identifier (get_varname_from "my-file.bin".toList MAX_NAME_LENGTH) ∧
    get_varname_from "1.bin".toList MAX_NAME_LENGTH = "1_BIN".toList ∧
    ¬ is_c_identifier (get_varname_from "1.bin".toList MAX_NAME_LENGTH) ∧
    get_varname_from "out/".toList MAX_NAME_LENGTH = [] ∧
    ¬ is_c_identifier (get_varname_from "out/".toList MAX_NAME_LENGTH) := by
  refine ⟨by decide, ?_, by decide, ?_, by decide, ?_⟩
  · rintro ⟨_, _, h⟩
    have h1 := h '-' (by decide)
    revert h1
    unfold is_uppercase is_digit
    decide
  · rintro ⟨_, h, _⟩
    have h1 := h '1' (by decide)
    revert h1
    unfold is_digit
    decide
  · rintro ⟨h, _, _⟩
    exact h (by decide)

/-- C14, amended: for every file path whose basename is not empty, does
not start with a digit and is made of letters, digits, `.` and `_` only,
the symbol `get_varname_from` produces can stand as a C identifier and
include-guard token: it is not empty, does not start with a digit, and each
of its characters is an uppercase letter, a digit or an underscore. -/
theorem C14_symbol_is_identifier (path : List Char)
    (hne : get_basename path ≠ [])
    (hfirst : ∀ c, (get_basename path).head? = some c → ¬ is_digit c)
    (hchars : ∀ c ∈ get_basename path,
      is_uppercase c ∨ is_lowercase c ∨ is_digit c ∨ c = '.' ∨ c = '_') :
    is_c_identifier (get_varname_from path MAX_NAME_LENGTH) := by
  have heq : get_varname_from path MAX_NAME_LENGTH =
      ((get_basename path).take 2048).map symbol_char := by
    unfold get_varname_from
    rw [get_varname_loop_eq, funext symbol_char_eq]
    rfl
  rw [heq]
  cases hb : get_basename path with
  | nil => exact absurd hb hne
  | cons c rest =>
    rw [hb] at hfirst hchars
    refine ⟨by simp, ?_, ?_⟩
    · intro d hd
      simp only [List.take_succ_cons, List.map_cons, List.head?_cons, Option.some.injEq] at hd
      rw [← hd]
      exact (symbol_char_identifier c (hchars c (List.mem_cons_self _ _))).2 (hfirst c rfl)
    · intro d hd
      obtain ⟨e, he, rfl⟩ := List.mem_map.mp hd
      exact (symbol_char_identifier e (hchars e (List.mem_of_mem_take he))).1

/-- C14, amended, for the path `in/data.bin`: the symbol is `DATA_BIN`. -/
theorem C14_symbol_is_identifier_witness :
    get_basename "in/data.bin".toList ≠ [] ∧
    get_varname_from "in/data.bin".toList MAX_NAME_LENGTH = "DATA_BIN".toList ∧
    is_c_identifier (get_varname_from "in/data.bin".toList MAX_NAME_LENGTH) :=
  ⟨by decide, by decide,
    C14_symbol_is_identifier "in/data.bin".toList (by decide)
      (by
        intro c hc
        have h1 : c = 'd' := by
          have h2 : (get_basename "in/data.bin".toList).head? = some 'd' := by decide
          rw [h2] at hc
          exact (Option.some.inj hc).symm
        rw [h1]
        unfold is_digit
        decide)
      (by
        unfold is_uppercase is_lowercase is_digit
        decide)⟩
theorem symbol_char_eq_iff (a b : Char) :
    symbol_char a = symbol_char b ↔ chars_alike a b := by
  have ha := toNat_symbol_char a
  have hb := toNat_symbol_char b
  have hiff : symbol_char a = symbol_char b ↔ (symbol_char a).toNat = (symbol_char b).toNat :=
    ⟨fun h => by rw [h], fun h => char_eq_of_toNat_eq _ _ h⟩
  have hab : a = b ↔ a.toNat = b.toNat :=
    ⟨fun h => by rw [h], fun h => char_eq_of_toNat_eq _ _ h⟩
  rw [hiff, ha, hb]
  unfold chars_alike same_letter
  simp only [is_lowercase_iff, toNat_dot, toNat_underscore, hab]
  split_ifs <;> omega

theorem map_symbol_char_eq_iff (l1 l2 : List Char) :
    l1.map symbol_char = l2.map symbol_char ↔ List.Forall₂ chars_alike l1 l2 := by
  induction l1 generalizing l2 with
  | nil =>
    cases l2 with
    | nil => simp
    | cons b l2 => simp
  | cons a l1 ih =>
    cases l2 with
    | nil => simp
    | cons b l2 =>
      simp only [List.map_cons, List.cons.injEq, List.forall₂_cons, symbol_char_eq_iff, ih]

/-- Basenames without uppercase letter and underscore that are alike are equal. -/
theorem chars_alike_eq (l1 l2 : List Char)
    (h1 : ∀ c ∈ l1, ¬ is_uppercase c ∧ c ≠ '_') (h2 : ∀ c ∈ l2, ¬ is_uppercase c ∧ c ≠ '_')
    (hall : List.Forall₂ chars_alike l1 l2) : l1 = l2 := by
  induction l1 generalizing l2 with
  | nil =>
    cases hall
    rfl
  | cons a l1 ih =>
    cases l2 with
    | nil => cases hall
    | cons b l2 =>
      rw [List.forall₂_cons] at hall
      obtain ⟨hab, hrest⟩ := hall
      have ha := h1 a (List.mem_cons_self _ _)
      have hb := h2 b (List.mem_cons_self _ _)
      have e : a = b := by
        have hab1 : a = b ↔ a.toNat = b.toNat :=
          ⟨fun h => by rw [h], fun h => char_eq_of_toNat_eq _ _ h⟩
        unfold chars_alike same_letter at hab
        simp only [is_lowercase_iff, is_uppercase_iff, toNat_dot, toNat_underscore, hab1,
          ne_eq] at *
        omega
      rw [e, ih l2 (fun c hc => h1 c (List.mem_cons_of_mem _ hc))
        (fun c hc => h2 c (List.mem_cons_of_mem _ hc)) hrest]

/-- C15 as stated fails: the basenames `a.b` and `a_b` differ and have the
same symbol `A_B`, and so have `readme` and `README`. -/
theorem C15_counterexample_same_symbol :
    get_basename "a.b".toList ≠ get_basename "a_b".toList ∧
    get_varname_from "a.b".toList MAX_NAME_LENGTH =
      get_varname_from "a_b".toList MAX_NAME_LENGTH ∧
    get_basename "doc/readme".toList ≠ get_basename "doc/README".toList ∧
    get_varname_from "doc/readme".toList MAX_NAME_LENGTH =
      get_varname_from "doc/README".toList MAX_NAME_LENGTH := by
  decide

/-- C15, amended: for any two paths whose basenames are at most 2048
characters long, `get_varname_from` returns the same symbol name exactly
when the basenames have the same length and, position by position, their
characters are equal, or are the same letter in its two cases, or are `.`
and `_`; two basenames that differ in any other way get different symbol
names, and so do, in particular, two basenames of different lengths and two
different basenames without uppercase letter and underscore. -/
theorem C15_symbol_unique (p q : List Char)
    (hp : (get_basename p).length ≤ 2048) (hq : (get_basename q).length ≤ 2048) :
    (get_varname_from p MAX_NAME_LENGTH = get_varname_from q MAX_NAME_LENGTH ↔
      List.Forall₂ chars_alike (get_basename p) (get_basename q)) ∧
    ((get_basename p).length ≠ (get_basename q).length →
      get_varname_from p MAX_NAME_LENGTH ≠ get_varname_from q MAX_NAME_LENGTH) ∧
    ((∀ c ∈ get_basename p, ¬ is_uppercase c ∧ c ≠ '_') →
      (∀ c ∈ get_basename q, ¬ is_uppercase c ∧ c ≠ '_') →
      get_basename p ≠ get_basename q →
      get_varname_from p MAX_NAME_LENGTH ≠ get_varname_from q MAX_NAME_LENGTH) := by
  have hiff : get_varname_from p MAX_NAME_LENGTH = get_varname_from q MAX_NAME_LENGTH ↔
      List.Forall₂ chars_alike (get_basename p) (get_basename q) := by
    unfold get_varname_from
    rw [get_varname_loop_eq, get_varname_loop_eq, funext symbol_char_eq,
      List.take_of_length_le (show (get_basename p).length ≤ MAX_NAME_LENGTH from hp),
      List.take_of_length_le (show (get_basename q).length ≤ MAX_NAME_LENGTH from hq)]
    exact map_symbol_char_eq_iff _ _
  refine ⟨hiff, ?_, ?_⟩
  · intro hlen heq
    exact hlen (hiff.mp heq).length_eq
  · intro hpc hqc hne heq
    exact hne (chars_alike_eq _ _ hpc hqc (hiff.mp heq))

/-- C15, amended, for the paths `doc/README.md` and `my_file.bin`, whose
basenames hold uppercase letters and an underscore: they have different
lengths, and different symbols. -/
theorem C15_symbol_unique_witness :
    (get_basename "doc/README.md".toList).length ≤ 2048 ∧
    (get_basename "my_file.bin".toList).length ≤ 2048 ∧
    (get_basename "doc/README.md".toList).length ≠ (get_basename "my_file.bin".toList).length ∧
    get_varname_from "doc/README.md".toList MAX_NAME_LENGTH ≠
      get_varname_from "my_file.bin".toList MAX_NAME_LENGTH :=
  ⟨by decide, by decide, by decide,
    (C15_symbol_unique "doc/README.md".toList "my_file.bin".toList (by decide)
      (by decide)).2.1 (by decide)⟩
/-! ## Failure before any output -/

/-- C16: when the configuration has no input file, or the input file
cannot be opened, `process_file` ends by `exit(EXIT_FAILURE)`, a non-zero
status, and leaves the file system as it was: no output file, primary or
companion, has been created or truncated. -/
theorem C16_no_input_no_output (fs : FileSystem) (cfg : config) (lm : List Char)
    (h : cfg.input_filename = none ∨
      ∃ name, cfg.input_filename = some name ∧ fs.content (fs.file_of name) = none) :
    process_file fs cfg lm = some (Outcome.exited EXIT_FAILURE, fs) ∧ EXIT_FAILURE ≠ 0 := by
  refine ⟨?_, by decide⟩
  rcases h with h | ⟨name, h1, h2⟩
  · unfold process_file
    rw [h]
  · unfold process_file
    rw [h1]
    simp only [fopen_rb, h2]

/-- C16 for the default configuration, which names no input file, and for
the input `missing.bin`, which the sample file system does not hold. -/
theorem C16_no_input_no_output_witness :
    config_s_default.input_filename = none ∧
    (process_file sample_fs config_s_default sample_time =
      some (Outcome.exited EXIT_FAILURE, sample_fs) ∧ EXIT_FAILURE ≠ 0) ∧
    sample_fs.content (sample_fs.file_of "missing.bin".toList) = none ∧
    (process_file sample_fs
        { config_s_default with input_filename := some "missing.bin".toList } sample_time =
      some (Outcome.exited EXIT_FAILURE, sample_fs) ∧ EXIT_FAILURE ≠ 0) :=
  ⟨rfl, C16_no_input_no_output sample_fs config_s_default sample_time (Or.inl rfl),
    by decide,
    C16_no_input_no_output sample_fs
      { config_s_default with input_filename := some "missing.bin".toList } sample_time
      (Or.inr ⟨"missing.bin".toList, rfl, by decide⟩)⟩
/-! ## The read position of the input stream -/

theorem print_buffer_eq_enumFrom (cfg : config) (bytes : List Nat) (t : Nat) :
    (print_buffer cfg (bytes.map byte_to_char) t).1 =
      ((bytes.enumFrom t).map fun p => print_byte cfg p.1 (byte_to_char p.2)).flatten := by
  induction bytes generalizing t with
  | nil => simp [print_buffer]
  | cons b rest ih =>
    simp only [List.map_cons, print_buffer, List.enumFrom_cons, List.flatten_cons, ih]


theorem filter_not_blank_hex_literal (c : Int) :
    (hex_literal c).filter not_blank = hex_literal c := by
  rw [List.filter_eq_self]
  intro x hx
  have h1 : List.count ' ' (hex_literal c) = 0 := count_hex_literal c ' ' (by decide)
  have h2 : List.count '\n' (hex_literal c) = 0 := count_hex_literal c '\n' (by decide)
  rw [List.count_eq_zero] at h1 h2
  unfold not_blank
  simp only [Bool.and_eq_true, bne_iff_ne, ne_eq]
  exact ⟨fun h => h1 (h ▸ hx), fun h => h2 (h ▸ hx)⟩

theorem filter_not_blank_separator_text (cfg : config) (t : Nat) :
    (separator_text cfg t).filter not_blank = if t = 0 then [] else [','] := by
  unfold separator_text
  have hrep : ∀ n, (List.replicate n ' ').filter not_blank = [] := by
    intro n
    rw [List.filter_eq_nil_iff]
    intro x hx
    rw [List.eq_of_mem_replicate hx]
    decide
  by_cases h0 : t = 0
  · simp [h0, hrep]
  · by_cases h16 : t % 16 = 0 <;> simp [h0, h16, hrep, not_blank]

theorem filter_not_blank_whole_buffer (cfg : config) (cs : List Int) (t : Nat) :
    (whole_buffer cfg cs (t + 1)).filter not_blank =
      (cs.map fun c => [','] ++ hex_literal c).flatten := by
  induction cs generalizing t with
  | nil => simp [whole_buffer]
  | cons c rest ih =>
    rw [whole_buffer_cons, List.filter_append, List.filter_append,
      filter_not_blank_separator_text, filter_not_blank_hex_literal, ih]
    simp

theorem filter_not_blank_body (cfg : config) (c : Int) (rest : List Int) :
    (whole_buffer cfg (c :: rest) 0).filter not_blank =
      [','].intercalate ((c :: rest).map hex_literal) := by
  rw [whole_buffer_cons, List.filter_append, List.filter_append,
    filter_not_blank_separator_text, filter_not_blank_hex_literal,
    filter_not_blank_whole_buffer, List.map_cons, intercalate_cons_eq]
  simp [Function.comp_def]

theorem parse_literal_hex_literal (b : Nat) (hb : b < 256) :
    parse_literal (hex_literal (byte_to_char b)) = some b := by
  rw [hex_literal_eq, to_uint8_byte_to_char b hb]
  simp only [parse_literal, true_and, and_self, if_true,
    hex_value_digit (b / 16) (by omega), hex_value_digit (b % 16) (by omega)]
  congr 1
  omega

theorem parse_literals_hex_literals (bytes : List Nat) (hb : ∀ b ∈ bytes, b < 256) :
    parse_literals ((bytes.map byte_to_char).map hex_literal) = some bytes := by
  induction bytes with
  | nil => rfl
  | cons b rest ih =>
    simp only [List.map_cons, parse_literals,
      parse_literal_hex_literal b (hb b (List.mem_cons_self _ _)),
      ih (fun c hc => hb c (List.mem_cons_of_mem _ hc))]

theorem not_mem_hex_literal_comma (c : Int) : ',' ∉ hex_literal c :=
  List.count_eq_zero.mp (count_hex_literal c ',' (by decide))

theorem decode_body_whole_buffer (cfg : config) (bytes : List Nat)
    (hb : ∀ b ∈ bytes, b < 256) :
    decode_body (whole_buffer cfg (bytes.map byte_to_char) 0) = some bytes := by
  cases bytes with
  | nil => rfl
  | cons b rest =>
    unfold decode_body
    rw [List.map_cons, filter_not_blank_body]
    have hne : [','].intercalate ((byte_to_char b :: rest.map byte_to_char).map hex_literal)
        ≠ [] := by
      rw [List.map_cons, intercalate_cons_eq, hex_literal_eq]
      simp
    rw [if_neg hne, List.splitOn_intercalate _ ',' _ (by simp)]
    · exact parse_literals_hex_literals (b :: rest) hb
    · intro l hl
      obtain ⟨c, _, rfl⟩ := List.mem_map.mp hl
      exact not_mem_hex_literal_comma c

theorem decode_body_of (cfg : config) (bytes : List Nat) (hb : ∀ b ∈ bytes, b < 256)
    (hfit : fits_fprintf cfg bytes.length) :
    decode_body (body_of cfg (opened bytes)) = some bytes := by
  rw [body_of_eq_whole cfg bytes hfit]
  exact decode_body_whole_buffer cfg bytes hb

theorem filter_not_blank_wide_body :
    (List.replicate 2147483647 ' ' ++ ['0', 'x']).filter not_blank = ['0', 'x'] := by
  have hrep : (List.replicate 2147483647 ' ').filter not_blank = [] := by
    rw [List.filter_eq_nil_iff]
    intro x hx
    rw [List.eq_of_mem_replicate hx]
    decide
  rw [List.filter_append, hrep]
  rfl

/-- C19 as stated fails: with the indent width `INT_MAX` the body of a
one-byte file is the padding and `0x`, which cannot be read back as the
byte; and the one-byte files 0x41 and 0x42, two different inputs, have the
same body. -/
theorem C19_counterexample_not_read_back :
    (∃ body input1, print_content (opened [65]) wide_config = some (body, input1) ∧
      decode_body body = none) ∧
    body_of wide_config (opened [65]) = body_of wide_config (opened [66]) ∧
    [65] ≠ [66] := by
  refine ⟨⟨_, _, print_content_wide 65, ?_⟩, by rw [body_of_wide, body_of_wide], by decide⟩
  unfold decode_body
  rw [filter_not_blank_wide_body]
  decide

/-- C19, amended: for every sequence of bytes (values below 256) and every
configuration for which no call of `fprintf` has more than `INT_MAX`
characters to write (p being the number of spaces written for the indent
width: p + 4 at most `INT_MAX` for a non-empty input, p + 6 for more than
16 bytes), reading back the body `print_content` returns (spaces and
newlines removed, split at commas, each `0xHH` read in base 16) gives the
sequence itself; hence two such inputs with the same body, whatever their
configurations, are the same. -/
theorem C19_transcoding_lossless (bytes : List Nat) (cfg : config)
    (hb : ∀ b ∈ bytes, b < 256) (hfit : fits_fprintf cfg bytes.length) :
    (∃ body input1, print_content (opened bytes) cfg = some (body, input1) ∧
      decode_body body = some bytes) ∧
    (∀ (bytes2 : List Nat) (cfg2 : config) (body : List Char) (input1 input2 : FILE),
      (∀ b ∈ bytes2, b < 256) → fits_fprintf cfg2 bytes2.length →
      print_content (opened bytes) cfg = some (body, input1) →
      print_content (opened bytes2) cfg2 = some (body, input2) → bytes2 = bytes) := by
  constructor
  · exact ⟨_, _, print_content_eq _ _, decode_body_of cfg bytes hb hfit⟩
  · intro bytes2 cfg2 body input1 input2 hb2 hfit2 h1 h2
    rw [print_content_eq] at h1 h2
    have e1 := decode_body_of cfg bytes hb hfit
    have e2 := decode_body_of cfg2 bytes2 hb2 hfit2
    unfold body_of at e1 e2
    simp only [Option.some.injEq, Prod.mk.injEq] at h1 h2
    rw [h1.1] at e1
    rw [h2.1, e1] at e2
    exact (Option.some.inj e2).symm

/-- C19, amended, for the 17 bytes 0x00..0x10 and the default configuration. -/
theorem C19_transcoding_lossless_witness :
    (∀ b ∈ List.range 17, b < 256) ∧
    fits_fprintf config_s_default (List.range 17).length ∧
    ∃ body input1, print_content (opened (List.range 17)) config_s_default =
        some (body, input1) ∧
      decode_body body = some (List.range 17) :=
  ⟨by decide, by decide,
    (C19_transcoding_lossless (List.range 17) config_s_default (by decide) (by decide)).1⟩
/-! ## The chunks of the input -/

theorem print_content_chunks_eq (cfg : config) (chunks : List (List Int)) (t : Nat)
    (hne : ∀ ch ∈ chunks, ch ≠ []) :
    print_content_chunks cfg chunks t = (print_buffer cfg chunks.flatten t).1 := by
  induction chunks generalizing t with
  | nil => simp [print_content_chunks, print_buffer]
  | cons ch rest ih =>
    have hch : ch.length ≠ 0 := by
      have := hne ch (List.mem_cons_self _ _)
      exact fun h => this (List.length_eq_zero.mp h)
    simp only [print_content_chunks, if_neg hch, List.flatten_cons, print_buffer_append,
      print_buffer_snd]
    rw [ih _ (fun c hc => hne c (List.mem_cons_of_mem _ hc))]

/-- C20: however a byte sequence is delivered to the loop of
`print_content` as consecutive non-empty chunks, the text written is the
one obtained by rendering the whole sequence byte by byte, each byte with
its index counted from the start of the stream; and this is the text
`print_content` returns, reading buffers of 8192 bytes. -/
theorem C20_chunking_independent (cfg : config) (chunks : List (List Nat))
    (hne : ∀ ch ∈ chunks, ch ≠ []) :
    print_content_chunks cfg (chunks.map fun ch => ch.map byte_to_char) 0 =
      render_bytewise cfg chunks.flatten ∧
    print_content (opened chunks.flatten) cfg =
      some (render_bytewise cfg chunks.flatten, at_end (opened chunks.flatten)) := by
  have hr : ∀ bytes : List Nat,
      (print_buffer cfg (bytes.map byte_to_char) 0).1 = render_bytewise cfg bytes :=
    fun bytes => print_buffer_eq_enumFrom cfg bytes 0
  constructor
  · rw [print_content_chunks_eq, ← hr, List.map_flatten]
    intro ch hch
    obtain ⟨c, hc, rfl⟩ := List.mem_map.mp hch
    intro h
    exact hne c hc (List.map_eq_nil_iff.mp h)
  · rw [print_content_eq, remaining_chars_opened, hr]

/-- C20 for the 17 bytes 0x00..0x10 delivered as 5, 11 and 1 bytes. -/
theorem C20_chunking_independent_witness :
    (∀ ch ∈ [List.range 5, List.range' 5 11, [16]], ch ≠ []) ∧
    [List.range 5, List.range' 5 11, [16]].flatten = List.range 17 ∧
    print_content_chunks config_s_default
        ([List.range 5, List.range' 5 11, [16]].map fun ch => ch.map byte_to_char) 0 =
      render_bytewise config_s_default [List.range 5, List.range' 5 11, [16]].flatten :=
  ⟨by decide, by decide,
    (C20_chunking_independent config_s_default [List.range 5, List.range' 5 11, [16]]
      (by decide)).1⟩
/-! ## The command line -/

theorem parse_loop_options (flags : List Char) (opts : List (List Char))
    (hopts : options_of flags opts) (hflags : ∀ c ∈ flags, c = 'p' ∨ c = 'h' ∨ c = 'v') :
    ∀ (previous : List Char) (rest : List (List Char)) (dest : config),
      ∃ previous1 dest1,
        parse_loop previous (opts ++ rest) false dest = parse_loop previous1 rest false dest1 ∧
        ('v' ∉ flags → dest.mode = Mode.MODE_HELP → dest1.mode = Mode.MODE_HELP) := by
  induction hopts with
  | done => intro previous rest dest; exact ⟨previous, dest, rfl, fun _ h => h⟩
  | flag c t arguments hc _ ih =>
    intro previous rest dest
    rcases hflags c hc with rfl | rfl | rfl
    · obtain ⟨p1, d1, h1, h2⟩ := ih ('-' :: 'p' :: t) rest { dest with progmem := true }
      refine ⟨p1, d1, ?_, h2⟩
      rw [← h1]
      simp [parse_loop]
    · obtain ⟨p1, d1, h1, h2⟩ := ih ('-' :: 'h' :: t) rest { dest with mode := Mode.MODE_HELP }
      refine ⟨p1, d1, ?_, fun hv _ => h2 hv rfl⟩
      rw [← h1]
      simp [parse_loop]
    · obtain ⟨p1, d1, h1, _⟩ := ih ('-' :: 'v' :: t) rest
        { dest with mode := Mode.MODE_VERSION }
      refine ⟨p1, d1, ?_, fun hv _ => absurd hc hv⟩
      rw [← h1]
      simp [parse_loop]
  | valued c t value arguments hc _ ih =>
    intro previous rest dest
    rcases hc with rfl | rfl
    · obtain ⟨p1, d1, h1, h2⟩ := ih value rest { dest with output_filename := value }
      refine ⟨p1, d1, ?_, h2⟩
      rw [← h1]
      simp [parse_loop]
    · obtain ⟨p1, d1, h1, h2⟩ := ih value rest
        { dest with indent := int_to_size_t (atoi value) }
      refine ⟨p1, d1, ?_, h2⟩
      rw [← h1]
      simp [parse_loop]

theorem parse_loop_positional (previous : List Char) (rest : List (List Char)) (dest : config)
    (hrest : rest = [] ∨ ∃ a r, rest = a :: r ∧ a.head? ≠ some '-') :
    ∃ dest1, parse_loop previous rest false dest = some dest1 ∧ dest1.mode = dest.mode := by
  rcases hrest with rfl | ⟨a, r, rfl, ha⟩
  · exact ⟨_, rfl, rfl⟩
  · refine ⟨{ dest with input_filename := some a }, ?_, rfl⟩
    simp [parse_loop, ha]

set_option maxRecDepth 100000 in
/-- C17 as stated fails: with `-h -v` the later `-v` sets the mode again
and the run prints the version text, not the help text; with `-h -x` the
run ends by `exit(EXIT_FAILURE)` for the unrecognized option. -/
theorem C17_counterexample_help_overridden :
    main sample_fs ["filetoarray".toList, "-h".toList, "-v".toList] sample_time sample_build =
      some { status := 0, stdout := VERSION_INFO sample_build, files := sample_fs } ∧
    VERSION_INFO sample_build ≠ HELP ∧
    main sample_fs ["filetoarray".toList, "-h".toList, "-x".toList] sample_time sample_build =
      some { status := EXIT_FAILURE, stdout := [], files := sample_fs } ∧
    EXIT_FAILURE ≠ 0 := by
  refine ⟨rfl, by decide, rfl, by decide⟩

/-- C17, amended: for every argument list made of the program name,
recognized options (`-p`, `-h`, `-v`, `-o` and `-i` with their values), an
option `-h`, further recognized options none of which is `-v`, and then
nothing or a positional argument with whatever follows it, the run is in
Help mode: `main` prints the help text, exits with status 0 and leaves the
file system as it was, so no file is processed and no output file written. -/
theorem C17_help_mode (fs : FileSystem) (program t : List Char)
    (before after rest : List (List Char)) (lm build : List Char)
    (hbefore : options_of ['p', 'h', 'v'] before)
    (hafter : options_of ['p', 'h'] after)
    (hrest : rest = [] ∨ ∃ a r, rest = a :: r ∧ a.head? ≠ some '-') :
    (∃ cfg, parse_run_configuration
        (program :: (before ++ ('-' :: 'h' :: t) :: (after ++ rest))) config_s_default =
          some cfg ∧ cfg.mode = Mode.MODE_HELP) ∧
    main fs (program :: (before ++ ('-' :: 'h' :: t) :: (after ++ rest))) lm build =
      some { status := 0, stdout := HELP, files := fs } := by
  obtain ⟨p1, d1, h1, _⟩ := parse_loop_options _ before hbefore (by simp)
    program (('-' :: 'h' :: t) :: (after ++ rest)) config_s_default
  obtain ⟨p2, d2, h2, hm2⟩ := parse_loop_options _ after hafter
    (by intro c hc; simp at hc; rcases hc with rfl | rfl <;> simp)
    ('-' :: 'h' :: t) rest { d1 with mode := Mode.MODE_HELP }
  obtain ⟨d3, h3, hm3⟩ := parse_loop_positional p2 rest d2 hrest
  have hparse : parse_run_configuration
      (program :: (before ++ ('-' :: 'h' :: t) :: (after ++ rest))) config_s_default =
        some d3 := by
    unfold parse_run_configuration
    simp only [List.headD_cons, List.drop_succ_cons, List.drop_zero]
    rw [h1, ← h3, ← h2]
    simp [parse_loop]
  have hmode : d3.mode = Mode.MODE_HELP := by
    rw [hm3]
    exact hm2 (by decide) rfl
  refine ⟨⟨d3, hparse, hmode⟩, ?_⟩
  unfold main
  rw [hparse]
  simp only [hmode]
  rfl

/-- C17, amended, for `filetoarray -o x.h -h -p -i 8 data.bin` on the
sample file system. -/
theorem C17_help_mode_witness :
    options_of ['p', 'h', 'v'] ["-o".toList, "x.h".toList] ∧
    options_of ['p', 'h'] ["-p".toList, "-i".toList, "8".toList] ∧
    main sample_fs
      ("filetoarray".toList :: (["-o".toList, "x.h".toList] ++ ('-' :: 'h' :: []) ::
        (["-p".toList, "-i".toList, "8".toList] ++ ["data.bin".toList])))
      sample_time sample_build =
      some { status := 0, stdout := HELP, files := sample_fs } :=
  have h1 : options_of ['p', 'h', 'v'] ["-o".toList, "x.h".toList] :=
    options_of.valued 'o' [] "x.h".toList [] (Or.inl rfl) options_of.done
  have h2 : options_of ['p', 'h'] ["-p".toList, "-i".toList, "8".toList] :=
    options_of.flag 'p' [] _ (by decide)
      (options_of.valued 'i' [] "8".toList [] (Or.inr rfl) options_of.done)
  ⟨h1, h2,
    (C17_help_mode sample_fs "filetoarray".toList [] _ _ ["data.bin".toList] sample_time
      sample_build h1 h2 (Or.inr ⟨_, _, rfl, by decide⟩)).2⟩
end FileToArray
